import Mathlib

/-!
# Verification of the hyperbloom bloom-filter library

A shallow embedding of the four filter variants of the `hyperbloom` Go
package (`StripedBloomFilter`, `BloomFilter`, `NaiveStripedBloomFilter`,
`NaiveBloomFilter`), together with proofs and refutations of the spec's
claims about them.

Modelling conventions:
* Go byte slices and strings become `List Nat` (each element a byte value).
* `uint64` arithmetic is `Nat` with explicit two-complement wrapping where
  Go wraps (`usub1` models `x - 1` on `uint64`; `toInt64` models the Go
  conversion `int(x)` of a `uint64` on a 64-bit platform).
* The external 64-bit hash (`XXHN.Checksum64`) is an arbitrary function
  parameter `h : List Nat → Nat`, since the spec declares the hashing
  primitive an external collaborator.
* Fallible Go code returns `GoRes α`: `ok` for a normal return, `gerr e`
  for a returned non-nil `error` value, `panicked` for a runtime panic
  (index out of range, integer divide by zero, impossible `make`).
* Mutating methods have Go value receivers, but mutate the shared backing
  array through the slice; we model the caller-visible effect by returning
  the updated filter next to the result.  Assignments to the receiver's
  *fields* (as done by `StripedBloomFilter.Load`) are visible only to the
  local copy, so that method returns the caller's filter unchanged.
* Files are modelled as the byte streams they contain: `Write` returns the
  bytes it would write, `Load` consumes a byte stream argument.
* Mutex lock/unlock calls are no-ops in this sequential model, but the
  *index computations* they perform (`mutArr[shardID]`) are kept, since
  they can panic.
-/

/-- The distinct `errors.New` values returned by the Go code. -/
inductive GoErr where
  /-- "Filter size must be at least 64" -/
  | sizeAtLeast64 : GoErr
  /-- "Shards must be nonzero" -/
  | shardsNonzero : GoErr
  /-- "Size must be a power of 2" -/
  | sizePow2 : GoErr
  /-- "Shards must be a power of 2" -/
  | shardsPow2 : GoErr
  /-- "Shards cannot exceed size/64" -/
  | shardsExceed : GoErr
  /-- "Size must be a multiple of shards" -/
  | sizeMultiple : GoErr
  /-- "Index can't be larger than filter size" -/
  | idxRange : GoErr
  /-- "File bitvector size: ... Specified size: ... Mismatch." -/
  | sizeMismatch : GoErr
deriving Repr, DecidableEq

/-- Outcome of running a piece of Go code: a normal return value, a
returned non-nil `error`, or a runtime panic. -/
inductive GoRes (α : Type) where
  | ok : α → GoRes α
  | gerr : GoErr → GoRes α
  | panicked : GoRes α
deriving Repr, DecidableEq

/-- `uint64` subtraction of 1: `x - 1` wraps to `2^64 - 1` at zero. -/
def usub1 (n : Nat) : Nat := if n = 0 then 2 ^ 64 - 1 else n - 1

/-- The Go conversion `int(x)` of a `uint64` value on a 64-bit platform:
two-complement reinterpretation of the low 64 bits. -/
def toInt64 (x : Nat) : Int :=
  if x % 2 ^ 64 < 2 ^ 63 then ((x % 2 ^ 64 : Nat) : Int)
  else ((x % 2 ^ 64 : Nat) : Int) - 2 ^ 64

/-- `pert[len(pert)-1] = pert[len(pert)-1] & 0xFF`: replace the last
element of the list by itself masked with `0xFF`. -/
def maskLast : List Nat → List Nat
  | [] => []
  | [b] => [b &&& 0xFF]
  | b :: c :: rest => b :: maskLast (c :: rest)

/-- The loop body of `hashEntry`, iterated `n` times: each iteration
masks the last byte of the (aliased, hence persistently mutated) entry
with `0xFF` and then hashes the whole entry with the external 64-bit
hash `h`. -/
def hashEntryLoop (h : List Nat → Nat) : List Nat → Nat → List Nat
  | _, 0 => []
  | e, n + 1 =>
    let e2 := maskLast e
    h e2 :: hashEntryLoop h e2 n

/-- `hashEntry(entry, n)` from the source: hash the entry `n` times,
"perturbing" the last byte between calls with the no-op mask `& 0xFF`.
Returns `none` for the panic on `pert[len(pert)-1]` when the entry is
empty (index `-1`); with `n = 0` the loop body never runs. -/
def hashEntry (h : List Nat → Nat) (entry : List Nat) (n : Nat) :
    Option (List Nat) :=
  if n = 0 then some []
  else if entry.isEmpty then none
  else some (hashEntryLoop h entry n)

/-- The shared shape of the `Insert`/`InsertAsync` loops: for each hash
value, mask it with `size - 1` and call the variant's single-bit set
primitive; return its error as soon as one call does not succeed. -/
def insertLoop {σ : Type} (set : σ → Nat → GoRes Unit × σ) (mask : Nat) :
    List Nat → σ → GoRes Unit × σ
  | [], st => (.ok (), st)
  | hv :: rest, st =>
    match set st (hv &&& mask) with
    | (.ok _, st2) => insertLoop set mask rest st2
    | (r, st2) => (r, st2)

/-- The shared shape of the `Lookup`/`LookupAsync` loops: for each hash
value, mask it with `size - 1` and call the variant's single-bit get
primitive; short-circuit to `false` on the first unset position, and
return the error when the get failed. -/
def lookupLoop (get : Nat → GoRes Bool) (mask : Nat) :
    List Nat → GoRes Bool
  | [] => .ok true
  | hv :: rest =>
    match get (hv &&& mask) with
    | .ok true => lookupLoop get mask rest
    | .ok false => .ok false
    | .gerr e => .gerr e
    | .panicked => .panicked

/-- The shared shape of the `Load` loops: for every index `i` of the byte
stream whose byte is positive, call the variant's set primitive at `i`,
*discarding* its returned error (the Go code ignores the return value)
but propagating panics. -/
def loadLoop {σ : Type} (set : σ → Nat → GoRes Unit × σ) :
    List Nat → Nat → σ → GoRes Unit × σ
  | [], _, st => (.ok (), st)
  | b :: rest, i, st =>
    if b > 0 then
      match set st i with
      | (.panicked, st2) => (.panicked, st2)
      | (_, st2) => loadLoop set rest (i + 1) st2
    else loadLoop set rest (i + 1) st

/-- `bufio.Reader.ReadBytes('\n')`: the prefix of the stream up to and
including the first newline byte, or the whole stream at EOF (the code
treats `io.EOF` as success). -/
def readBytesNL : List Nat → List Nat
  | [] => []
  | b :: rest => if b = 10 then [b] else b :: readBytesNL rest

/-- `fmt.Sprintf("%b", w)` as a byte list: binary digits, no padding. -/
def binDigits (w : Nat) : List Nat := (Nat.toDigits 2 w).map Char.toNat

/-- `fmt.Sprintf("%d", w)` as a byte list: decimal digits. -/
def decDigits (w : Nat) : List Nat := (Nat.toDigits 10 w).map Char.toNat

/-! ## StripedBloomFilter: packed bits, striped locking -/

/-- `StripedBloomFilter`: a `uint64` bit vector with one mutex per shard.
`mutArr` is represented by its length, which equals `shards`. -/
structure StripedBloomFilter where
  bv : List Nat
  size : Nat
  shards : Nat
  hf : Nat
  shardLen : Nat
deriving Repr, DecidableEq

/-- `NewStripedBloomFilter(size, hf, shards)` with its validation chain. -/
def NewStripedBloomFilter (size hf shards : Nat) :
    GoRes StripedBloomFilter :=
  if size < 64 then .gerr .sizeAtLeast64
  else if shards = 0 then .gerr .shardsNonzero
  else if size &&& usub1 size ≠ 0 then .gerr .sizePow2
  else if shards &&& usub1 shards ≠ 0 then .gerr .shardsPow2
  else if shards > size / 64 then .gerr .shardsExceed
  else if size % shards ≠ 0 then .gerr .sizeMultiple
  else .ok { bv := List.replicate (size / 64) 0, size := size,
             shards := shards, hf := hf, shardLen := size / shards }

/-- `StripedBloomFilter.setBit`: bounds guard, then lock the owning shard
(panicking on divide-by-zero or a `mutArr` index out of range) and OR the
bit into its word (panicking if the word index is out of range). -/
def StripedBloomFilter.setBit (bf : StripedBloomFilter) (idx : Nat) :
    GoRes Unit × StripedBloomFilter :=
  if idx > usub1 bf.size then (.gerr .idxRange, bf)
  else if bf.shardLen = 0 then (.panicked, bf)
  else if idx / bf.shardLen ≥ bf.shards then (.panicked, bf)
  else if idx / 64 ≥ bf.bv.length then (.panicked, bf)
  else (.ok (), { bf with
    bv := bf.bv.set (idx / 64)
      (bf.bv.getD (idx / 64) 0 ||| (1 <<< (idx &&& 63))) })

/-- `StripedBloomFilter.setBitAsync`: like `setBit` but without the shard
computation and lock. -/
def StripedBloomFilter.setBitAsync (bf : StripedBloomFilter) (idx : Nat) :
    GoRes Unit × StripedBloomFilter :=
  if idx > usub1 bf.size then (.gerr .idxRange, bf)
  else if idx / 64 ≥ bf.bv.length then (.panicked, bf)
  else (.ok (), { bf with
    bv := bf.bv.set (idx / 64)
      (bf.bv.getD (idx / 64) 0 ||| (1 <<< (idx &&& 63))) })

/-- `StripedBloomFilter.getBit`: bounds guard, shard lock, then test the
bit. -/
def StripedBloomFilter.getBit (bf : StripedBloomFilter) (idx : Nat) :
    GoRes Bool :=
  if idx > usub1 bf.size then .gerr .idxRange
  else if bf.shardLen = 0 then .panicked
  else if idx / bf.shardLen ≥ bf.shards then .panicked
  else if idx / 64 ≥ bf.bv.length then .panicked
  else .ok ((bf.bv.getD (idx / 64) 0 &&& (1 <<< (idx &&& 63))) != 0)

/-- `StripedBloomFilter.getBitAsync`: like `getBit`, no lock. -/
def StripedBloomFilter.getBitAsync (bf : StripedBloomFilter) (idx : Nat) :
    GoRes Bool :=
  if idx > usub1 bf.size then .gerr .idxRange
  else if idx / 64 ≥ bf.bv.length then .panicked
  else .ok ((bf.bv.getD (idx / 64) 0 &&& (1 <<< (idx &&& 63))) != 0)

/-- `StripedBloomFilter.Insert`. -/
def StripedBloomFilter.Insert (h : List Nat → Nat)
    (bf : StripedBloomFilter) (entry : List Nat) :
    GoRes Unit × StripedBloomFilter :=
  match hashEntry h entry bf.hf with
  | none => (.panicked, bf)
  | some hashes => insertLoop StripedBloomFilter.setBit (usub1 bf.size) hashes bf

/-- `StripedBloomFilter.InsertAsync`. -/
def StripedBloomFilter.InsertAsync (h : List Nat → Nat)
    (bf : StripedBloomFilter) (entry : List Nat) :
    GoRes Unit × StripedBloomFilter :=
  match hashEntry h entry bf.hf with
  | none => (.panicked, bf)
  | some hashes =>
    insertLoop StripedBloomFilter.setBitAsync (usub1 bf.size) hashes bf

/-- `StripedBloomFilter.Lookup` (read-only: the receiver is not mutated). -/
def StripedBloomFilter.Lookup (h : List Nat → Nat)
    (bf : StripedBloomFilter) (entry : List Nat) : GoRes Bool :=
  match hashEntry h entry bf.hf with
  | none => .panicked
  | some hashes => lookupLoop bf.getBit (usub1 bf.size) hashes

/-- `StripedBloomFilter.LookupAsync` (read-only). -/
def StripedBloomFilter.LookupAsync (h : List Nat → Nat)
    (bf : StripedBloomFilter) (entry : List Nat) : GoRes Bool :=
  match hashEntry h entry bf.hf with
  | none => .panicked
  | some hashes => lookupLoop bf.getBitAsync (usub1 bf.size) hashes

/-- `StripedBloomFilter.Write`: loop `i` from `0` to `size - 1` appending
`Sprintf("%b", bf.bv[i])`; the slice access panics as soon as `i` reaches
`len(bf.bv)`, so the write only completes when `size ≤ len(bf.bv)`.
Returns the bytes written to the file. -/
def StripedBloomFilter.Write (bf : StripedBloomFilter) :
    GoRes (List Nat) :=
  if bf.size ≤ bf.bv.length then
    .ok (((List.range bf.size).map fun i => binDigits (bf.bv.getD i 0)).flatten)
  else .panicked

/-- `StripedBloomFilter.Load`: reads the stream up to a newline, then —
with **no** size validation — assigns `bf.size = uint64(len(bv)-1)` and
`bf.bv = make([]uint64, bf.size-1)` on the value receiver's local copy
and sets the local copy's bits.  The `make` panics when the wrapped
length is absurd (`≥ 2^63`, i.e. more than `maxint` elements).  The
caller's filter is returned unchanged in every case, because the slice
header and size were reassigned locally before any write. -/
def StripedBloomFilter.Load (bf : StripedBloomFilter)
    (stream : List Nat) : GoRes Unit × StripedBloomFilter :=
  let bv := readBytesNL stream
  let size2 := usub1 bv.length
  let newLen := usub1 size2
  if newLen ≥ 2 ^ 63 then (.panicked, bf)
  else
    let local2 : StripedBloomFilter :=
      { bf with size := size2, bv := List.replicate newLen 0 }
    match (loadLoop StripedBloomFilter.setBit bv 0 local2).1 with
    | .ok _ => (.ok (), bf)
    | .gerr e => (.gerr e, bf)
    | .panicked => (.panicked, bf)

/-! ## BloomFilter: packed bits, centralized locking -/

/-- `BloomFilter`: a `uint64` bit vector under one `RWMutex`. -/
structure BloomFilter where
  bv : List Nat
  size : Nat
  hf : Nat
deriving Repr, DecidableEq

/-- `NewBloomFilter(size, hf)`. -/
def NewBloomFilter (size hf : Nat) : GoRes BloomFilter :=
  if size < 64 then .gerr .sizeAtLeast64
  else if size &&& usub1 size ≠ 0 then .gerr .sizePow2
  else .ok { bv := List.replicate (size / 64) 0, size := size, hf := hf }

/-- `BloomFilter.setBit`. -/
def BloomFilter.setBit (bf : BloomFilter) (idx : Nat) :
    GoRes Unit × BloomFilter :=
  if idx > usub1 bf.size then (.gerr .idxRange, bf)
  else if idx / 64 ≥ bf.bv.length then (.panicked, bf)
  else (.ok (), { bf with
    bv := bf.bv.set (idx / 64)
      (bf.bv.getD (idx / 64) 0 ||| (1 <<< (idx &&& 63))) })

/-- `BloomFilter.setBitAsync` (no lock; same data path). -/
def BloomFilter.setBitAsync (bf : BloomFilter) (idx : Nat) :
    GoRes Unit × BloomFilter :=
  bf.setBit idx

/-- `BloomFilter.getBit`. -/
def BloomFilter.getBit (bf : BloomFilter) (idx : Nat) : GoRes Bool :=
  if idx > usub1 bf.size then .gerr .idxRange
  else if idx / 64 ≥ bf.bv.length then .panicked
  else .ok ((bf.bv.getD (idx / 64) 0 &&& (1 <<< (idx &&& 63))) != 0)

/-- `BloomFilter.getBitAsync` (no lock; same data path). -/
def BloomFilter.getBitAsync (bf : BloomFilter) (idx : Nat) : GoRes Bool :=
  bf.getBit idx

/-- `BloomFilter.Insert`. -/
def BloomFilter.Insert (h : List Nat → Nat) (bf : BloomFilter)
    (entry : List Nat) : GoRes Unit × BloomFilter :=
  match hashEntry h entry bf.hf with
  | none => (.panicked, bf)
  | some hashes => insertLoop BloomFilter.setBit (usub1 bf.size) hashes bf

/-- `BloomFilter.InsertAsync`. -/
def BloomFilter.InsertAsync (h : List Nat → Nat) (bf : BloomFilter)
    (entry : List Nat) : GoRes Unit × BloomFilter :=
  match hashEntry h entry bf.hf with
  | none => (.panicked, bf)
  | some hashes => insertLoop BloomFilter.setBitAsync (usub1 bf.size) hashes bf

/-- `BloomFilter.Lookup` (read-only). -/
def BloomFilter.Lookup (h : List Nat → Nat) (bf : BloomFilter)
    (entry : List Nat) : GoRes Bool :=
  match hashEntry h entry bf.hf with
  | none => .panicked
  | some hashes => lookupLoop bf.getBit (usub1 bf.size) hashes

/-- `BloomFilter.LookupAsync` (read-only). -/
def BloomFilter.LookupAsync (h : List Nat → Nat) (bf : BloomFilter)
    (entry : List Nat) : GoRes Bool :=
  match hashEntry h entry bf.hf with
  | none => .panicked
  | some hashes => lookupLoop bf.getBitAsync (usub1 bf.size) hashes

/-- `BloomFilter.Write`: same loop as `StripedBloomFilter.Write` —
`i` runs to `size - 1` while only `len(bf.bv)` words exist. -/
def BloomFilter.Write (bf : BloomFilter) : GoRes (List Nat) :=
  if bf.size ≤ bf.bv.length then
    .ok (((List.range bf.size).map fun i => binDigits (bf.bv.getD i 0)).flatten)
  else .panicked

/-- `BloomFilter.Load`: reads up to a newline, fails with the mismatch
error unless `size == uint64(len(bv)-1)`, then sets the bit for every
positive byte, ignoring `setBit`'s returned error. -/
def BloomFilter.Load (bf : BloomFilter) (stream : List Nat) :
    GoRes Unit × BloomFilter :=
  let bv := readBytesNL stream
  if bf.size ≠ usub1 bv.length then (.gerr .sizeMismatch, bf)
  else loadLoop BloomFilter.setBit bv 0 bf

/-! ## NaiveStripedBloomFilter: byte-per-flag, striped locking -/

/-- `NaiveStripedBloomFilter`: one byte per position, sharded mutexes. -/
structure NaiveStripedBloomFilter where
  bv : List Nat
  size : Nat
  shards : Nat
  hf : Nat
  shardLen : Nat
deriving Repr, DecidableEq

/-- `NewNaiveStripedBloomFilter(size, hf, shards)`: unlike the packed
striped constructor there is **no** `shards == 0` guard, so the final
`size % shards` check divides by zero (a Go runtime panic) when
`shards = 0` survives the earlier checks (`0 & (0-1) == 0` passes the
power-of-two test and `0 > size/64` is false). -/
def NewNaiveStripedBloomFilter (size hf shards : Nat) :
    GoRes NaiveStripedBloomFilter :=
  if size < 64 then .gerr .sizeAtLeast64
  else if size &&& usub1 size ≠ 0 then .gerr .sizePow2
  else if shards &&& usub1 shards ≠ 0 then .gerr .shardsPow2
  else if shards > size / 64 then .gerr .shardsExceed
  else if shards = 0 then .panicked
  else if size % shards ≠ 0 then .gerr .sizeMultiple
  else .ok { bv := List.replicate size 0, size := size,
             shards := shards, hf := hf, shardLen := size / shards }

/-- `NaiveStripedBloomFilter.setByte`. -/
def NaiveStripedBloomFilter.setByte (bf : NaiveStripedBloomFilter)
    (idx : Nat) : GoRes Unit × NaiveStripedBloomFilter :=
  if idx > usub1 bf.size then (.gerr .idxRange, bf)
  else if bf.shardLen = 0 then (.panicked, bf)
  else if idx / bf.shardLen ≥ bf.shards then (.panicked, bf)
  else if idx ≥ bf.bv.length then (.panicked, bf)
  else (.ok (), { bf with bv := bf.bv.set idx 1 })

/-- `NaiveStripedBloomFilter.setByteAsync`. -/
def NaiveStripedBloomFilter.setByteAsync (bf : NaiveStripedBloomFilter)
    (idx : Nat) : GoRes Unit × NaiveStripedBloomFilter :=
  if idx > usub1 bf.size then (.gerr .idxRange, bf)
  else if idx ≥ bf.bv.length then (.panicked, bf)
  else (.ok (), { bf with bv := bf.bv.set idx 1 })

/-- `NaiveStripedBloomFilter.getByte`. -/
def NaiveStripedBloomFilter.getByte (bf : NaiveStripedBloomFilter)
    (idx : Nat) : GoRes Bool :=
  if idx > usub1 bf.size then .gerr .idxRange
  else if bf.shardLen = 0 then .panicked
  else if idx / bf.shardLen ≥ bf.shards then .panicked
  else if idx ≥ bf.bv.length then .panicked
  else .ok (bf.bv.getD idx 0 == 1)

/-- `NaiveStripedBloomFilter.getByteAsync`. -/
def NaiveStripedBloomFilter.getByteAsync (bf : NaiveStripedBloomFilter)
    (idx : Nat) : GoRes Bool :=
  if idx > usub1 bf.size then .gerr .idxRange
  else if idx ≥ bf.bv.length then .panicked
  else .ok (bf.bv.getD idx 0 == 1)

/-- `NaiveStripedBloomFilter.Insert`. -/
def NaiveStripedBloomFilter.Insert (h : List Nat → Nat)
    (bf : NaiveStripedBloomFilter) (entry : List Nat) :
    GoRes Unit × NaiveStripedBloomFilter :=
  match hashEntry h entry bf.hf with
  | none => (.panicked, bf)
  | some hashes =>
    insertLoop NaiveStripedBloomFilter.setByte (usub1 bf.size) hashes bf

/-- `NaiveStripedBloomFilter.InsertAsync`. -/
def NaiveStripedBloomFilter.InsertAsync (h : List Nat → Nat)
    (bf : NaiveStripedBloomFilter) (entry : List Nat) :
    GoRes Unit × NaiveStripedBloomFilter :=
  match hashEntry h entry bf.hf with
  | none => (.panicked, bf)
  | some hashes =>
    insertLoop NaiveStripedBloomFilter.setByteAsync (usub1 bf.size) hashes bf

/-- `NaiveStripedBloomFilter.Lookup` (read-only). -/
def NaiveStripedBloomFilter.Lookup (h : List Nat → Nat)
    (bf : NaiveStripedBloomFilter) (entry : List Nat) : GoRes Bool :=
  match hashEntry h entry bf.hf with
  | none => .panicked
  | some hashes => lookupLoop bf.getByte (usub1 bf.size) hashes

/-- `NaiveStripedBloomFilter.LookupAsync` (read-only). -/
def NaiveStripedBloomFilter.LookupAsync (h : List Nat → Nat)
    (bf : NaiveStripedBloomFilter) (entry : List Nat) : GoRes Bool :=
  match hashEntry h entry bf.hf with
  | none => .panicked
  | some hashes => lookupLoop bf.getByteAsync (usub1 bf.size) hashes

/-- `NaiveStripedBloomFilter.Write`: `Sprintf("%d", bf.bv[i])` for `i`
up to `size - 1`; here `len(bf.bv) == size`, so the loop stays in
bounds exactly when `size ≤ len(bf.bv)`. -/
def NaiveStripedBloomFilter.Write (bf : NaiveStripedBloomFilter) :
    GoRes (List Nat) :=
  if bf.size ≤ bf.bv.length then
    .ok (((List.range bf.size).map fun i => decDigits (bf.bv.getD i 0)).flatten)
  else .panicked

/-- `NaiveStripedBloomFilter.Load`: mismatch check, then set every
position whose stream byte is positive (errors ignored). -/
def NaiveStripedBloomFilter.Load (bf : NaiveStripedBloomFilter)
    (stream : List Nat) : GoRes Unit × NaiveStripedBloomFilter :=
  let bv := readBytesNL stream
  if bf.size ≠ usub1 bv.length then (.gerr .sizeMismatch, bf)
  else loadLoop NaiveStripedBloomFilter.setByte bv 0 bf

/-! ## NaiveBloomFilter: byte-per-flag, centralized locking -/

/-- `NaiveBloomFilter`: one byte per position under one `RWMutex`. -/
structure NaiveBloomFilter where
  bv : List Nat
  size : Nat
  hf : Nat
deriving Repr, DecidableEq

/-- `NewNaiveBloomFilter(size, hf)`. -/
def NewNaiveBloomFilter (size hf : Nat) : GoRes NaiveBloomFilter :=
  if size < 64 then .gerr .sizeAtLeast64
  else if size &&& usub1 size ≠ 0 then .gerr .sizePow2
  else .ok { bv := List.replicate size 0, size := size, hf := hf }

/-- `NaiveBloomFilter.setByte`: the guard is `int(idx) >= len(bf.bv)` —
the `uint64` index is converted to a signed `int`, so indices at or
above `2^63` become negative, pass the guard, and the slice write
`bf.bv[idx] = 1` panics. -/
def NaiveBloomFilter.setByte (bf : NaiveBloomFilter) (idx : Nat) :
    GoRes Unit × NaiveBloomFilter :=
  if toInt64 idx ≥ (bf.bv.length : Int) then (.gerr .idxRange, bf)
  else if idx ≥ bf.bv.length then (.panicked, bf)
  else (.ok (), { bf with bv := bf.bv.set idx 1 })

/-- `NaiveBloomFilter.setByteAsync`: same guard, no lock. -/
def NaiveBloomFilter.setByteAsync (bf : NaiveBloomFilter) (idx : Nat) :
    GoRes Unit × NaiveBloomFilter :=
  if toInt64 idx ≥ (bf.bv.length : Int) then (.gerr .idxRange, bf)
  else if idx ≥ bf.bv.length then (.panicked, bf)
  else (.ok (), { bf with bv := bf.bv.set idx 1 })

/-- `NaiveBloomFilter.getByte`: guard `idx >= bf.size`, then a `switch`
on `bf.bv[idx]` (which panics when `idx ≥ len(bf.bv)`). -/
def NaiveBloomFilter.getByte (bf : NaiveBloomFilter) (idx : Nat) :
    GoRes Bool :=
  if idx ≥ bf.size then .gerr .idxRange
  else if idx ≥ bf.bv.length then .panicked
  else .ok (bf.bv.getD idx 0 == 1)

/-- `NaiveBloomFilter.getByteAsync`. -/
def NaiveBloomFilter.getByteAsync (bf : NaiveBloomFilter) (idx : Nat) :
    GoRes Bool :=
  if idx ≥ bf.size then .gerr .idxRange
  else if idx ≥ bf.bv.length then .panicked
  else .ok (bf.bv.getD idx 0 == 1)

/-- `NaiveBloomFilter.Insert`. -/
def NaiveBloomFilter.Insert (h : List Nat → Nat) (bf : NaiveBloomFilter)
    (entry : List Nat) : GoRes Unit × NaiveBloomFilter :=
  match hashEntry h entry bf.hf with
  | none => (.panicked, bf)
  | some hashes => insertLoop NaiveBloomFilter.setByte (usub1 bf.size) hashes bf

/-- `NaiveBloomFilter.InsertAsync`. -/
def NaiveBloomFilter.InsertAsync (h : List Nat → Nat)
    (bf : NaiveBloomFilter) (entry : List Nat) :
    GoRes Unit × NaiveBloomFilter :=
  match hashEntry h entry bf.hf with
  | none => (.panicked, bf)
  | some hashes =>
    insertLoop NaiveBloomFilter.setByteAsync (usub1 bf.size) hashes bf

/-- `NaiveBloomFilter.Lookup` (read-only). -/
def NaiveBloomFilter.Lookup (h : List Nat → Nat) (bf : NaiveBloomFilter)
    (entry : List Nat) : GoRes Bool :=
  match hashEntry h entry bf.hf with
  | none => .panicked
  | some hashes => lookupLoop bf.getByte (usub1 bf.size) hashes

/-- `NaiveBloomFilter.LookupAsync` (read-only). -/
def NaiveBloomFilter.LookupAsync (h : List Nat → Nat)
    (bf : NaiveBloomFilter) (entry : List Nat) : GoRes Bool :=
  match hashEntry h entry bf.hf with
  | none => .panicked
  | some hashes => lookupLoop bf.getByteAsync (usub1 bf.size) hashes

/-- `NaiveBloomFilter.Write`: decimal digits of each byte, no newline. -/
def NaiveBloomFilter.Write (bf : NaiveBloomFilter) : GoRes (List Nat) :=
  if bf.size ≤ bf.bv.length then
    .ok (((List.range bf.size).map fun i => decDigits (bf.bv.getD i 0)).flatten)
  else .panicked

/-- `NaiveBloomFilter.Load`: mismatch check, then set every position
whose stream byte is positive (errors ignored). -/
def NaiveBloomFilter.Load (bf : NaiveBloomFilter) (stream : List Nat) :
    GoRes Unit × NaiveBloomFilter :=
  let bv := readBytesNL stream
  if bf.size ≠ usub1 bv.length then (.gerr .sizeMismatch, bf)
  else loadLoop NaiveBloomFilter.setByte bv 0 bf

/-! ## Basic lemmas about the helpers -/

theorem maskLast_idem : ∀ l : List Nat, maskLast (maskLast l) = maskLast l
  | [] => rfl
  | [_] => by simp [maskLast, Nat.and_assoc]
  | b :: c :: rest => by
    have ih := maskLast_idem (c :: rest)
    cases rest with
    | nil => simp [maskLast, Nat.and_assoc]
    | cons d r2 =>
      simp only [maskLast] at ih ⊢
      rw [ih]

/-- The `hashEntry` loop hashes the once-masked entry every iteration:
after the first iteration the entry already has its last byte masked, and
re-masking is the identity, so every hash call sees the same bytes. -/
theorem hashEntryLoop_eq (h : List Nat → Nat) :
    ∀ (n : Nat) (e : List Nat),
      hashEntryLoop h e n = List.replicate n (h (maskLast e))
  | 0, _ => rfl
  | n + 1, e => by
    simp only [hashEntryLoop, List.replicate_succ]
    rw [hashEntryLoop_eq h n (maskLast e), maskLast_idem]

theorem hashEntry_of_ne_nil (h : List Nat → Nat) {e : List Nat}
    (he : e ≠ []) (n : Nat) :
    hashEntry h e n = some (List.replicate n (h (maskLast e))) := by
  unfold hashEntry
  rcases n with _ | n
  · simp
  · simp [List.isEmpty_iff, he, hashEntryLoop_eq]

/-- A positive number whose bitwise AND with its predecessor vanishes is
a power of two (the converse of the constructor's power-of-two test). -/
theorem pow2_of_and_pred {n : Nat} (hn : n ≠ 0)
    (h : n &&& (n - 1) = 0) : ∃ k, n = 2 ^ k := by
  obtain ⟨i, hi, hmax⟩ := Nat.exists_most_significant_bit hn
  refine ⟨i, ?_⟩
  have hge : 2 ^ i ≤ n := Nat.testBit_implies_ge hi
  have hlt : n < 2 ^ (i + 1) := by
    apply Nat.lt_pow_two_of_testBit
    intro j hj
    exact hmax j (Nat.lt_of_succ_le hj)
  by_contra hne
  have hgt : 2 ^ i < n := lt_of_le_of_ne hge fun e => hne e.symm
  have h1 : 2 ^ i ≤ n - 1 := Nat.le_sub_one_of_lt hgt
  have h2 : n - 1 < 2 ^ i * 2 := by
    have := Nat.sub_le n 1
    calc n - 1 ≤ n := this
    _ < 2 ^ (i + 1) := hlt
    _ = 2 ^ i * 2 := Nat.pow_succ ..
  have hdiv : (n - 1) / 2 ^ i = 1 := by
    have hp : 0 < 2 ^ i := Nat.pos_pow_of_pos i (by omega)
    have hlow : 1 ≤ (n - 1) / 2 ^ i := (Nat.le_div_iff_mul_le hp).2 (by omega)
    have hhigh : (n - 1) / 2 ^ i < 2 :=
      (Nat.div_lt_iff_lt_mul hp).2 (by omega)
    omega
  have hti : Nat.testBit (n - 1) i = true := by
    rw [Nat.testBit_to_div_mod, hdiv]
    rfl
  have hcontra : Nat.testBit (n &&& (n - 1)) i = true := by
    rw [Nat.testBit_and, hi, hti]
    rfl
  rw [h] at hcontra
  simp at hcontra

theorem dvd64_of_pow2 {n : Nat} (h64 : 64 ≤ n)
    (h : n &&& (n - 1) = 0) : 64 ∣ n := by
  obtain ⟨k, rfl⟩ := pow2_of_and_pred (by omega) h
  have h6 : (6 : Nat) ≤ k := by
    by_contra hk
    have : (2 : Nat) ^ k < 2 ^ 6 :=
      Nat.pow_lt_pow_right (by omega) (by omega)
    omega
  have : (2 : Nat) ^ 6 ∣ 2 ^ k := pow_dvd_pow 2 h6
  simpa using this

/-- Setting bit `b` in a word makes the mask test of bit `b` nonzero. -/
theorem or_shift_and_ne_zero (x b : Nat) :
    (x ||| (1 <<< b)) &&& (1 <<< b) ≠ 0 := by
  intro h0
  have hb : Nat.testBit ((x ||| (1 <<< b)) &&& (1 <<< b)) b = true := by
    rw [Nat.shiftLeft_eq, one_mul, Nat.testBit_and, Nat.testBit_or,
      Nat.testBit_two_pow_self]
    simp
  rw [h0] at hb
  simp at hb

/-- ORing extra bits into a word preserves a nonzero mask test. -/
theorem and_ne_zero_or (x y m : Nat) (hx : x &&& m ≠ 0) :
    (x ||| y) &&& m ≠ 0 := by
  intro h0
  apply hx
  apply Nat.eq_of_testBit_eq
  intro i
  have hz := congrArg (fun t => Nat.testBit t i) h0
  simp only [Nat.testBit_and, Nat.testBit_or, Nat.zero_testBit] at hz ⊢
  cases hx1 : Nat.testBit x i <;> cases hm1 : Nat.testBit m i <;> simp_all

theorem getD_set_self (l : List Nat) {i : Nat} (v : Nat)
    (hi : i < l.length) : (l.set i v).getD i 0 = v := by
  simp [List.getD_eq_getElem?_getD, List.getElem?_set_self hi]

theorem getD_set_neq (l : List Nat) {i j : Nat} (v : Nat) (hij : i ≠ j) :
    (l.set i v).getD j 0 = l.getD j 0 := by
  simp [List.getD_eq_getElem?_getD, List.getElem?_set_ne hij]

/-- The Go `int` reinterpretation of an in-range index stays below any
bound above the index (in particular below a slice length): small values
are unchanged and values at or above `2^63` become negative. -/
theorem toInt64_lt {idx n : Nat} (h : idx < n) : toInt64 idx < (n : Int) := by
  unfold toInt64
  split
  · have h1 : idx % 2 ^ 64 ≤ idx := Nat.mod_le _ _
    have : idx % 2 ^ 64 < n := lt_of_le_of_lt h1 h
    exact_mod_cast this
  · have : ((idx % 2 ^ 64 : Nat) : Int) < 2 ^ 64 := by
      exact_mod_cast Nat.mod_lt _ (by norm_num)
    omega

theorem usub1_eq_sub_one {n : Nat} (h : n ≠ 0) : usub1 n = n - 1 := by
  simp [usub1, h]

/-! ## Generic lemmas about the shared loop shapes -/

theorem insertLoop_mono {σ : Type} (set : σ → Nat → GoRes Unit × σ)
    (mask : Nat) (P : σ → Prop)
    (hset : ∀ st q, P st → P (set st q).2) :
    ∀ (hs : List Nat) (st : σ), P st → P (insertLoop set mask hs st).2
  | [], _, hp => hp
  | hv :: rest, st, hp => by
    have hp2 : P (set st (hv &&& mask)).2 := hset st (hv &&& mask) hp
    simp only [insertLoop]
    rcases hse : set st (hv &&& mask) with ⟨r, st2⟩
    rw [hse] at hp2
    cases r with
    | ok _ => exact insertLoop_mono set mask P hset rest st2 hp2
    | gerr e => exact hp2
    | panicked => exact hp2

theorem insertLoop_ok {σ : Type} (set : σ → Nat → GoRes Unit × σ)
    (mask : Nat) (Q : σ → Prop)
    (hset : ∀ st q, Q st → q ≤ mask →
      (set st q).1 = .ok () ∧ Q (set st q).2) :
    ∀ (hs : List Nat) (st : σ), Q st →
      (insertLoop set mask hs st).1 = .ok () ∧
      Q (insertLoop set mask hs st).2
  | [], _, hq => ⟨rfl, hq⟩
  | hv :: rest, st, hq => by
    have hstep := hset st (hv &&& mask) hq Nat.and_le_right
    simp only [insertLoop]
    rcases hse : set st (hv &&& mask) with ⟨r, st2⟩
    rw [hse] at hstep
    cases r with
    | ok _ => exact insertLoop_ok set mask Q hset rest st2 hstep.2
    | gerr e => exact absurd hstep.1 (by simp)
    | panicked => exact absurd hstep.1 (by simp)

theorem insertLoop_replicate {σ : Type} (set : σ → Nat → GoRes Unit × σ)
    (mask v : Nat) (Q P : σ → Prop)
    (hset : ∀ st, Q st →
      (set st (v &&& mask)).1 = .ok () ∧ Q (set st (v &&& mask)).2 ∧
      P (set st (v &&& mask)).2) :
    ∀ (n : Nat) (st : σ), Q st → 1 ≤ n →
      (insertLoop set mask (List.replicate n v) st).1 = .ok () ∧
      Q (insertLoop set mask (List.replicate n v) st).2 ∧
      P (insertLoop set mask (List.replicate n v) st).2
  | 0, _, _, h1 => absurd h1 (by omega)
  | 1, st, hq, _ => by
    have hstep := hset st hq
    simp only [List.replicate_succ, insertLoop]
    rcases hse : set st (v &&& mask) with ⟨r, st2⟩
    rw [hse] at hstep
    cases r with
    | ok _ => exact ⟨rfl, hstep.2.1, hstep.2.2⟩
    | gerr e => exact absurd hstep.1 (by simp)
    | panicked => exact absurd hstep.1 (by simp)
  | n + 2, st, hq, _ => by
    have hstep := hset st hq
    simp only [List.replicate_succ, insertLoop]
    rcases hse : set st (v &&& mask) with ⟨r, st2⟩
    rw [hse] at hstep
    cases r with
    | ok _ =>
      have := insertLoop_replicate set mask v Q P hset (n + 1) st2
        hstep.2.1 (by omega)
      simpa [List.replicate_succ] using this
    | gerr e => exact absurd hstep.1 (by simp)
    | panicked => exact absurd hstep.1 (by simp)

theorem lookupLoop_true (get : Nat → GoRes Bool) (mask : Nat) :
    ∀ hs : List Nat, (∀ hv ∈ hs, get (hv &&& mask) = .ok true) →
      lookupLoop get mask hs = .ok true
  | [], _ => rfl
  | hv :: rest, hget => by
    simp only [lookupLoop]
    rw [hget hv (by simp)]
    exact lookupLoop_true get mask rest fun v hvm => hget v (by simp [hvm])

theorem lookupLoop_ok (get : Nat → GoRes Bool) (mask : Nat) :
    ∀ hs : List Nat, (∀ hv ∈ hs, ∃ b, get (hv &&& mask) = .ok b) →
      ∃ b, lookupLoop get mask hs = .ok b
  | [], _ => ⟨true, rfl⟩
  | hv :: rest, hget => by
    obtain ⟨b, hb⟩ := hget hv (by simp)
    simp only [lookupLoop]
    rw [hb]
    cases b with
    | true => exact lookupLoop_ok get mask rest fun v hvm => hget v (by simp [hvm])
    | false => exact ⟨false, rfl⟩

theorem loadLoop_mono {σ : Type} (set : σ → Nat → GoRes Unit × σ)
    (P : σ → Prop) (hset : ∀ st q, P st → P (set st q).2) :
    ∀ (bytes : List Nat) (i : Nat) (st : σ), P st →
      P (loadLoop set bytes i st).2
  | [], _, _, hp => hp
  | b :: rest, i, st, hp => by
    have hp2 : P (set st i).2 := hset st i hp
    simp only [loadLoop]
    split
    · rcases hse : set st i with ⟨r, st2⟩
      rw [hse] at hp2
      cases r with
      | ok _ => exact loadLoop_mono set P hset rest (i + 1) st2 hp2
      | gerr e => exact loadLoop_mono set P hset rest (i + 1) st2 hp2
      | panicked => exact hp2
    · exact loadLoop_mono set P hset rest (i + 1) st hp

/-! ## Packed-bit and byte-flag store predicates -/

/-- Position `p` of a packed word vector reads as set: the word holding
it has a nonzero AND with the bit mask `1 <<< (p & 63)`. -/
def packedHasBit (bv : List Nat) (p : Nat) : Prop :=
  bv.getD (p / 64) 0 &&& (1 <<< (p &&& 63)) ≠ 0

/-- Position `p` of a byte-flag vector reads as set. -/
def byteHasFlag (bv : List Nat) (p : Nat) : Prop :=
  bv.getD p 0 = 1

theorem packedHasBit_set_self (bv : List Nat) {p : Nat}
    (hlen : p / 64 < bv.length) :
    packedHasBit
      (bv.set (p / 64) (bv.getD (p / 64) 0 ||| (1 <<< (p &&& 63)))) p := by
  unfold packedHasBit
  rw [getD_set_self _ _ hlen]
  exact or_shift_and_ne_zero _ _

theorem packedHasBit_set_mono (bv : List Nat) {p : Nat} (q w : Nat)
    (hp : packedHasBit bv p) :
    packedHasBit (bv.set (q / 64) (bv.getD (q / 64) 0 ||| w)) p := by
  unfold packedHasBit at hp ⊢
  by_cases hqp : q / 64 = p / 64
  · rw [hqp]
    by_cases hq : p / 64 < bv.length
    · rw [getD_set_self _ _ hq]
      exact and_ne_zero_or _ _ _ hp
    · rw [List.set_eq_of_length_le (by omega)]
      exact hp
  · rw [getD_set_neq _ _ hqp]
    exact hp

theorem byteHasFlag_set_mono (bv : List Nat) {p : Nat} (q : Nat)
    (hp : byteHasFlag bv p) : byteHasFlag (bv.set q 1) p := by
  unfold byteHasFlag at hp ⊢
  by_cases hqp : q = p
  · subst hqp
    by_cases hq : q < bv.length
    · rw [getD_set_self _ _ hq]
    · rw [List.set_eq_of_length_le (by omega)]
      exact hp
  · rw [getD_set_neq _ _ hqp]
    exact hp

/-! ## StripedBloomFilter lemmas -/

/-- The invariants a successfully constructed `StripedBloomFilter`
enjoys, phrased in the form the operation proofs consume. -/
structure SBFValid (bf : StripedBloomFilter) : Prop where
  hsize : 64 ≤ bf.size
  hdvd : 64 ∣ bf.size
  hbv : bf.bv.length = bf.size / 64
  hshard : bf.shardLen * bf.shards = bf.size
  hshardPos : 0 < bf.shardLen

/-- Unfolding a successful `NewStripedBloomFilter` call. -/
theorem NewStripedBloomFilter_ok {size hf shards : Nat}
    {bf : StripedBloomFilter}
    (h : NewStripedBloomFilter size hf shards = .ok bf) :
    64 ≤ size ∧ size &&& (size - 1) = 0 ∧ shards ≠ 0 ∧
    shards ≤ size / 64 ∧ size % shards = 0 ∧
    bf = { bv := List.replicate (size / 64) 0, size := size,
           shards := shards, hf := hf, shardLen := size / shards } := by
  unfold NewStripedBloomFilter at h
  split_ifs at h with h1 h2 h3 h4 h5 h6
  any_goals cases h
  rw [usub1_eq_sub_one (by omega)] at h3
  exact ⟨by omega, by omega, h2, by omega, by omega, rfl⟩

theorem SBFValid_of_new {size hf shards : Nat} {bf : StripedBloomFilter}
    (h : NewStripedBloomFilter size hf shards = .ok bf) : SBFValid bf := by
  obtain ⟨h1, h2, h3, h4, h5, rfl⟩ := NewStripedBloomFilter_ok h
  constructor
  · exact h1
  · exact dvd64_of_pow2 h1 h2
  · simp
  · exact Nat.div_mul_cancel (Nat.dvd_of_mod_eq_zero h5)
  · exact Nat.div_pos (le_trans h4 (Nat.div_le_self _ _)) (by omega)

/-- On a valid filter, `setBit` at an in-range position takes the
success path and ORs the bit into the right word. -/
theorem sbf_setBit_spec {bf : StripedBloomFilter} (hv : SBFValid bf)
    {p : Nat} (hp : p < bf.size) :
    bf.setBit p = (.ok (), { bf with
      bv := bf.bv.set (p / 64)
        (bf.bv.getD (p / 64) 0 ||| (1 <<< (p &&& 63))) }) := by
  unfold StripedBloomFilter.setBit
  have h0 : ¬ p > usub1 bf.size := by
    rw [usub1_eq_sub_one (by omega)]
    omega
  have h1 : ¬ bf.shardLen = 0 := by
    have := hv.hshardPos
    omega
  have h2 : ¬ p / bf.shardLen ≥ bf.shards := by
    rw [not_le, Nat.div_lt_iff_lt_mul hv.hshardPos, Nat.mul_comm, hv.hshard]
    exact hp
  have h3 : ¬ p / 64 ≥ bf.bv.length := by
    rw [not_le, hv.hbv]
    exact Nat.div_lt_div_of_lt_of_dvd hv.hdvd hp
  simp [h0, h1, h2, h3]

theorem sbf_setBitAsync_spec {bf : StripedBloomFilter} (hv : SBFValid bf)
    {p : Nat} (hp : p < bf.size) :
    bf.setBitAsync p = (.ok (), { bf with
      bv := bf.bv.set (p / 64)
        (bf.bv.getD (p / 64) 0 ||| (1 <<< (p &&& 63))) }) := by
  unfold StripedBloomFilter.setBitAsync
  have h0 : ¬ p > usub1 bf.size := by
    rw [usub1_eq_sub_one (by omega)]
    omega
  have h3 : ¬ p / 64 ≥ bf.bv.length := by
    rw [not_le, hv.hbv]
    exact Nat.div_lt_div_of_lt_of_dvd hv.hdvd hp
  simp [h0, h3]

/-- On a valid filter, `getBit` at an in-range position succeeds and
reports the bit test of the word holding the position. -/
theorem sbf_getBit_spec {bf : StripedBloomFilter} (hv : SBFValid bf)
    {p : Nat} (hp : p < bf.size) :
    bf.getBit p =
      .ok ((bf.bv.getD (p / 64) 0 &&& (1 <<< (p &&& 63))) != 0) := by
  unfold StripedBloomFilter.getBit
  have h0 : ¬ p > usub1 bf.size := by
    rw [usub1_eq_sub_one (by omega)]
    omega
  have h1 : ¬ bf.shardLen = 0 := by
    have := hv.hshardPos
    omega
  have h2 : ¬ p / bf.shardLen ≥ bf.shards := by
    rw [not_le, Nat.div_lt_iff_lt_mul hv.hshardPos, Nat.mul_comm, hv.hshard]
    exact hp
  have h3 : ¬ p / 64 ≥ bf.bv.length := by
    rw [not_le, hv.hbv]
    exact Nat.div_lt_div_of_lt_of_dvd hv.hdvd hp
  simp [h0, h1, h2, h3]

/-- A set position reads back `true` through `getBit` on a valid filter. -/
theorem sbf_getBit_true {bf : StripedBloomFilter} (hv : SBFValid bf)
    {p : Nat} (hp : p < bf.size) (hbit : packedHasBit bf.bv p) :
    bf.getBit p = .ok true := by
  rw [sbf_getBit_spec hv hp]
  unfold packedHasBit at hbit
  simp only [GoRes.ok.injEq, bne_iff_ne]
  exact hbit

/-- The fields of a `StripedBloomFilter` that no mutating operation
changes from the caller's point of view (value receivers: only writes
through the `bv` slice are shared, and those preserve its length). -/
def sbfFrame (a b : StripedBloomFilter) : Prop :=
  b.size = a.size ∧ b.shards = a.shards ∧ b.shardLen = a.shardLen ∧
  b.hf = a.hf ∧ b.bv.length = a.bv.length

theorem sbfFrame_refl (a : StripedBloomFilter) : sbfFrame a a :=
  ⟨rfl, rfl, rfl, rfl, rfl⟩

theorem sbfFrame_trans {a b c : StripedBloomFilter}
    (h1 : sbfFrame a b) (h2 : sbfFrame b c) : sbfFrame a c := by
  obtain ⟨e1, e2, e3, e4, e5⟩ := h1
  obtain ⟨f1, f2, f3, f4, f5⟩ := h2
  exact ⟨f1.trans e1, f2.trans e2, f3.trans e3, f4.trans e4, f5.trans e5⟩

theorem SBFValid_frame {a b : StripedBloomFilter} (hv : SBFValid a)
    (hf : sbfFrame a b) : SBFValid b := by
  obtain ⟨e1, e2, e3, e4, e5⟩ := hf
  exact ⟨e1 ▸ hv.hsize, e1 ▸ hv.hdvd, by rw [e5, e1, hv.hbv],
    by rw [e3, e2, e1, hv.hshard], e3 ▸ hv.hshardPos⟩

theorem sbf_setBit_frame (bf : StripedBloomFilter) (q : Nat) :
    sbfFrame bf (bf.setBit q).2 := by
  unfold StripedBloomFilter.setBit
  split_ifs <;> simp [sbfFrame, List.length_set]

theorem sbf_setBitAsync_frame (bf : StripedBloomFilter) (q : Nat) :
    sbfFrame bf (bf.setBitAsync q).2 := by
  unfold StripedBloomFilter.setBitAsync
  split_ifs <;> simp [sbfFrame, List.length_set]

theorem sbf_setBit_bv_mono (st : StripedBloomFilter) (q : Nat) {p : Nat}
    (hp : packedHasBit st.bv p) : packedHasBit ((st.setBit q).2).bv p := by
  unfold StripedBloomFilter.setBit
  split_ifs <;> first
    | exact hp
    | exact packedHasBit_set_mono st.bv q _ hp

theorem sbf_setBitAsync_bv_mono (st : StripedBloomFilter) (q : Nat)
    {p : Nat} (hp : packedHasBit st.bv p) :
    packedHasBit ((st.setBitAsync q).2).bv p := by
  unfold StripedBloomFilter.setBitAsync
  split_ifs <;> first
    | exact hp
    | exact packedHasBit_set_mono st.bv q _ hp

/-- On a valid filter, `Insert` of a non-empty entry succeeds and (when
`hf ≥ 1`) the derived position reads as set afterwards. -/
theorem sbf_Insert_spec (h : List Nat → Nat) {bf : StripedBloomFilter}
    (hv : SBFValid bf) {e : List Nat} (he : e ≠ []) :
    (bf.Insert h e).1 = .ok () ∧ SBFValid (bf.Insert h e).2 ∧
    sbfFrame bf (bf.Insert h e).2 ∧
    (1 ≤ bf.hf →
      packedHasBit ((bf.Insert h e).2).bv
        (h (maskLast e) &&& usub1 bf.size)) := by
  unfold StripedBloomFilter.Insert
  rw [hashEntry_of_ne_nil h he]
  rcases Nat.eq_zero_or_pos bf.hf with h0 | h1
  · rw [h0]
    exact ⟨rfl, hv, sbfFrame_refl bf, by omega⟩
  · have key := insertLoop_replicate StripedBloomFilter.setBit
      (usub1 bf.size) (h (maskLast e))
      (fun st => SBFValid st ∧ sbfFrame bf st)
      (fun st => packedHasBit st.bv (h (maskLast e) &&& usub1 bf.size))
      (fun st hq => ?hset) bf.hf bf ⟨hv, sbfFrame_refl bf⟩ h1
    · exact ⟨key.1, key.2.1.1, key.2.1.2, fun _ => key.2.2⟩
    case hset =>
      obtain ⟨hqv, hqf⟩ := hq
      have hmask : usub1 bf.size = bf.size - 1 :=
        usub1_eq_sub_one (by have := hv.hsize; omega)
      have hple : h (maskLast e) &&& usub1 bf.size < st.size := by
        have h1 : h (maskLast e) &&& usub1 bf.size ≤ usub1 bf.size :=
          Nat.and_le_right
        have h2 := hv.hsize
        have h3 := hqf.1
        omega
      rw [sbf_setBit_spec hqv hple]
      refine ⟨rfl, ⟨SBFValid_frame hqv ?_, sbfFrame_trans hqf ?_⟩, ?_⟩
      · exact ⟨rfl, rfl, rfl, rfl, by simp [List.length_set]⟩
      · exact ⟨rfl, rfl, rfl, rfl, by simp [List.length_set]⟩
      · apply packedHasBit_set_self
        rw [hqv.hbv]
        exact Nat.div_lt_div_of_lt_of_dvd hqv.hdvd hple

theorem sbf_InsertAsync_spec (h : List Nat → Nat)
    {bf : StripedBloomFilter} (hv : SBFValid bf) {e : List Nat}
    (he : e ≠ []) :
    (bf.InsertAsync h e).1 = .ok () ∧ SBFValid (bf.InsertAsync h e).2 ∧
    sbfFrame bf (bf.InsertAsync h e).2 := by
  unfold StripedBloomFilter.InsertAsync
  rw [hashEntry_of_ne_nil h he]
  have key := insertLoop_ok StripedBloomFilter.setBitAsync
    (usub1 bf.size) (fun st => SBFValid st ∧ sbfFrame bf st)
    (fun st q hq hle => ?hset)
    (List.replicate bf.hf (h (maskLast e))) bf ⟨hv, sbfFrame_refl bf⟩
  · exact ⟨key.1, key.2.1, key.2.2⟩
  case hset =>
    obtain ⟨hqv, hqf⟩ := hq
    have hmask : usub1 bf.size = bf.size - 1 :=
      usub1_eq_sub_one (by have := hv.hsize; omega)
    have hple : q < st.size := by
      have h2 := hv.hsize
      have h3 := hqf.1
      omega
    rw [sbf_setBitAsync_spec hqv hple]
    refine ⟨rfl, SBFValid_frame hqv ?_, sbfFrame_trans hqf ?_⟩
    · exact ⟨rfl, rfl, rfl, rfl, by simp [List.length_set]⟩
    · exact ⟨rfl, rfl, rfl, rfl, by simp [List.length_set]⟩

/-- On a valid filter whose derived position reads as set (or with
`hf = 0`, vacuously), `Lookup` answers `true` with no error. -/
theorem sbf_Lookup_true (h : List Nat → Nat) {bf : StripedBloomFilter}
    (hv : SBFValid bf) {e : List Nat} (he : e ≠ [])
    (hbit : 1 ≤ bf.hf →
      packedHasBit bf.bv (h (maskLast e) &&& usub1 bf.size)) :
    bf.Lookup h e = .ok true := by
  unfold StripedBloomFilter.Lookup
  rw [hashEntry_of_ne_nil h he]
  apply lookupLoop_true
  intro hw hmem
  have hweq : hw = h (maskLast e) := List.eq_of_mem_replicate hmem
  have hfpos : 1 ≤ bf.hf := by
    rcases Nat.eq_zero_or_pos bf.hf with h0 | h1
    · rw [h0] at hmem
      simp at hmem
    · exact h1
  have hple : hw &&& usub1 bf.size < bf.size := by
    have h1 : hw &&& usub1 bf.size ≤ usub1 bf.size := Nat.and_le_right
    have h2 := hv.hsize
    have h3 := usub1_eq_sub_one (n := bf.size) (by omega)
    omega
  rw [hweq]
  exact sbf_getBit_true hv (hweq ▸ hple) (hbit hfpos)

/-- `getBit` answers `ok true` exactly when the position passes every
guard and its bit is set. -/
theorem sbf_getBit_true_iff (bf : StripedBloomFilter) (p : Nat) :
    bf.getBit p = .ok true ↔
      (¬ p > usub1 bf.size ∧ bf.shardLen ≠ 0 ∧
       p / bf.shardLen < bf.shards ∧ p / 64 < bf.bv.length ∧
       packedHasBit bf.bv p) := by
  unfold StripedBloomFilter.getBit packedHasBit
  split_ifs with g1 g2 g3 g4
  · simp [g1]
  · simp [g2]
  · simp [not_lt.mpr g3]
  · simp [not_lt.mpr g4]
  · simp only [not_le] at g3 g4
    simp [g1, g2, g3, g4, bne_iff_ne]

theorem sbf_Insert_frame (h : List Nat → Nat) (bf : StripedBloomFilter)
    (e : List Nat) : sbfFrame bf ((bf.Insert h e).2) := by
  unfold StripedBloomFilter.Insert
  cases hE : hashEntry h e bf.hf with
  | none => exact sbfFrame_refl bf
  | some hs =>
    exact insertLoop_mono _ _ (sbfFrame bf)
      (fun st q hp => sbfFrame_trans hp (sbf_setBit_frame st q))
      hs bf (sbfFrame_refl bf)

theorem sbf_InsertAsync_frame (h : List Nat → Nat)
    (bf : StripedBloomFilter) (e : List Nat) :
    sbfFrame bf ((bf.InsertAsync h e).2) := by
  unfold StripedBloomFilter.InsertAsync
  cases hE : hashEntry h e bf.hf with
  | none => exact sbfFrame_refl bf
  | some hs =>
    exact insertLoop_mono _ _ (sbfFrame bf)
      (fun st q hp => sbfFrame_trans hp (sbf_setBitAsync_frame st q))
      hs bf (sbfFrame_refl bf)

theorem sbf_Insert_bv_mono (h : List Nat → Nat) (bf : StripedBloomFilter)
    (e : List Nat) {p : Nat} (hp : packedHasBit bf.bv p) :
    packedHasBit ((bf.Insert h e).2).bv p := by
  unfold StripedBloomFilter.Insert
  cases hE : hashEntry h e bf.hf with
  | none => exact hp
  | some hs =>
    exact insertLoop_mono _ _ (fun st => packedHasBit st.bv p)
      (fun st q hq => sbf_setBit_bv_mono st q hq) hs bf hp

theorem sbf_InsertAsync_bv_mono (h : List Nat → Nat)
    (bf : StripedBloomFilter) (e : List Nat) {p : Nat}
    (hp : packedHasBit bf.bv p) :
    packedHasBit ((bf.InsertAsync h e).2).bv p := by
  unfold StripedBloomFilter.InsertAsync
  cases hE : hashEntry h e bf.hf with
  | none => exact hp
  | some hs =>
    exact insertLoop_mono _ _ (fun st => packedHasBit st.bv p)
      (fun st q hq => sbf_setBitAsync_bv_mono st q hq) hs bf hp

/-- `StripedBloomFilter.Load` never changes the caller's filter: the
value receiver's `size` and `bv` fields are reassigned locally before
any bit is written. -/
theorem sbf_Load_state (bf : StripedBloomFilter) (stream : List Nat) :
    (bf.Load stream).2 = bf := by
  unfold StripedBloomFilter.Load
  dsimp only
  split
  · rfl
  · split <;> rfl

theorem sbf_Insert_get_mono (h : List Nat → Nat)
    (bf : StripedBloomFilter) (e : List Nat) (p : Nat)
    (hg : bf.getBit p = .ok true) :
    ((bf.Insert h e).2).getBit p = .ok true := by
  rw [sbf_getBit_true_iff] at hg ⊢
  obtain ⟨g1, g2, g3, g4, g5⟩ := hg
  obtain ⟨e1, e2, e3, e4, e5⟩ := sbf_Insert_frame h bf e
  refine ⟨by rw [e1]; exact g1, by rw [e3]; exact g2, ?_, ?_, ?_⟩
  · rw [e3, e2]
    exact g3
  · rw [e5]
    exact g4
  · exact sbf_Insert_bv_mono h bf e g5

theorem sbf_InsertAsync_get_mono (h : List Nat → Nat)
    (bf : StripedBloomFilter) (e : List Nat) (p : Nat)
    (hg : bf.getBit p = .ok true) :
    ((bf.InsertAsync h e).2).getBit p = .ok true := by
  rw [sbf_getBit_true_iff] at hg ⊢
  obtain ⟨g1, g2, g3, g4, g5⟩ := hg
  obtain ⟨e1, e2, e3, e4, e5⟩ := sbf_InsertAsync_frame h bf e
  refine ⟨by rw [e1]; exact g1, by rw [e3]; exact g2, ?_, ?_, ?_⟩
  · rw [e3, e2]
    exact g3
  · rw [e5]
    exact g4
  · exact sbf_InsertAsync_bv_mono h bf e g5

/-- A sequence of `Insert` calls on the same filter, each acting on the
state left by the previous one (the sequential client of the claim). -/
def StripedBloomFilter.insertAll (h : List Nat → Nat) :
    StripedBloomFilter → List (List Nat) → StripedBloomFilter
  | bf, [] => bf
  | bf, k :: rest => StripedBloomFilter.insertAll h (bf.Insert h k).2 rest

theorem sbf_insertAll_bv_mono (h : List Nat → Nat) :
    ∀ (ks : List (List Nat)) (bf : StripedBloomFilter) {p : Nat},
      packedHasBit bf.bv p →
      packedHasBit (StripedBloomFilter.insertAll h bf ks).bv p
  | [], _, _, hp => hp
  | k :: rest, bf, _, hp =>
    sbf_insertAll_bv_mono h rest (bf.Insert h k).2
      (sbf_Insert_bv_mono h bf k hp)

theorem sbf_insertAll_spec (h : List Nat → Nat) :
    ∀ (ks : List (List Nat)) (bf : StripedBloomFilter), SBFValid bf →
      (∀ k ∈ ks, k ≠ []) →
      SBFValid (StripedBloomFilter.insertAll h bf ks) ∧
      sbfFrame bf (StripedBloomFilter.insertAll h bf ks) ∧
      (∀ key ∈ ks, 1 ≤ bf.hf →
        packedHasBit (StripedBloomFilter.insertAll h bf ks).bv
          (h (maskLast key) &&& usub1 bf.size))
  | [], bf, hv, _ => ⟨hv, sbfFrame_refl bf, by simp⟩
  | k :: rest, bf, hv, hne => by
    have hkne : k ≠ [] := hne k (by simp)
    obtain ⟨hok, hv2, hfr2, hbit⟩ := sbf_Insert_spec h hv hkne
    have ih := sbf_insertAll_spec h rest (bf.Insert h k).2 hv2
      (fun k2 hk2 => hne k2 (by simp [hk2]))
    obtain ⟨ihv, ihfr, ihbit⟩ := ih
    refine ⟨ihv, sbfFrame_trans hfr2 ihfr, ?_⟩
    intro key hkey hhf
    simp only [StripedBloomFilter.insertAll]
    rcases List.mem_cons.1 hkey with rfl | hkey2
    · exact sbf_insertAll_bv_mono h rest (bf.Insert h key).2 (hbit hhf)
    · have := ihbit key hkey2 (by rw [hfr2.2.2.2.1]; exact hhf)
      rw [hfr2.1] at this
      exact this

/-- On a valid filter, `Insert` never returns an error (for any entry,
even one whose hashing panics). -/
theorem sbf_Insert_no_gerr (h : List Nat → Nat) {bf : StripedBloomFilter}
    (hv : SBFValid bf) (e : List Nat) (er : GoErr) :
    (bf.Insert h e).1 ≠ .gerr er := by
  unfold StripedBloomFilter.Insert
  cases hE : hashEntry h e bf.hf with
  | none => simp
  | some hs =>
    have key := insertLoop_ok StripedBloomFilter.setBit
      (usub1 bf.size) (fun st => SBFValid st ∧ sbfFrame bf st)
      (fun st q hq hle => ?hset) hs bf ⟨hv, sbfFrame_refl bf⟩
    · show (insertLoop StripedBloomFilter.setBit
        (usub1 bf.size) hs bf).1 ≠ .gerr er
      rw [key.1]
      simp
    case hset =>
      obtain ⟨hqv, hqf⟩ := hq
      have hmask : usub1 bf.size = bf.size - 1 :=
        usub1_eq_sub_one (by have := hv.hsize; omega)
      have hple : q < st.size := by
        have h2 := hv.hsize
        have h3 := hqf.1
        omega
      rw [sbf_setBit_spec hqv hple]
      refine ⟨rfl, SBFValid_frame hqv ?_, sbfFrame_trans hqf ?_⟩
      · exact ⟨rfl, rfl, rfl, rfl, by simp [List.length_set]⟩
      · exact ⟨rfl, rfl, rfl, rfl, by simp [List.length_set]⟩

/-- On a valid filter, `Lookup` never returns an error. -/
theorem sbf_Lookup_no_gerr (h : List Nat → Nat) {bf : StripedBloomFilter}
    (hv : SBFValid bf) (e : List Nat) (er : GoErr) :
    bf.Lookup h e ≠ .gerr er := by
  unfold StripedBloomFilter.Lookup
  cases hE : hashEntry h e bf.hf with
  | none => simp
  | some hs =>
    have key := lookupLoop_ok bf.getBit (usub1 bf.size) hs ?hget
    · obtain ⟨b, hb⟩ := key
      show lookupLoop bf.getBit (usub1 bf.size) hs ≠ .gerr er
      rw [hb]
      simp
    case hget =>
      intro hw _
      have hple : hw &&& usub1 bf.size < bf.size := by
        have h1 : hw &&& usub1 bf.size ≤ usub1 bf.size := Nat.and_le_right
        have h2 := hv.hsize
        have h3 := usub1_eq_sub_one (n := bf.size) (by omega)
        omega
      exact ⟨_, sbf_getBit_spec hv hple⟩

/-! ## BloomFilter lemmas -/

/-- Invariants of a successfully constructed `BloomFilter`. -/
structure BFValid (bf : BloomFilter) : Prop where
  hsize : 64 ≤ bf.size
  hdvd : 64 ∣ bf.size
  hbv : bf.bv.length = bf.size / 64

def bfFrame (a b : BloomFilter) : Prop :=
  b.size = a.size ∧ b.hf = a.hf ∧ b.bv.length = a.bv.length

theorem bfFrame_refl (a : BloomFilter) : bfFrame a a := ⟨rfl, rfl, rfl⟩

theorem bfFrame_trans {a b c : BloomFilter} (h1 : bfFrame a b)
    (h2 : bfFrame b c) : bfFrame a c :=
  ⟨h2.1.trans h1.1, h2.2.1.trans h1.2.1, h2.2.2.trans h1.2.2⟩

theorem BFValid_frame {a b : BloomFilter} (hv : BFValid a)
    (hf : bfFrame a b) : BFValid b :=
  ⟨hf.1 ▸ hv.hsize, hf.1 ▸ hv.hdvd, by rw [hf.2.2, hf.1, hv.hbv]⟩

theorem NewBloomFilter_ok {size hf : Nat} {bf : BloomFilter}
    (h : NewBloomFilter size hf = .ok bf) :
    64 ≤ size ∧ size &&& (size - 1) = 0 ∧
    bf = { bv := List.replicate (size / 64) 0, size := size, hf := hf } := by
  unfold NewBloomFilter at h
  split_ifs at h with h1 h2
  any_goals cases h
  rw [usub1_eq_sub_one (by omega)] at h2
  exact ⟨by omega, by omega, rfl⟩

theorem BFValid_of_new {size hf : Nat} {bf : BloomFilter}
    (h : NewBloomFilter size hf = .ok bf) : BFValid bf := by
  obtain ⟨h1, h2, rfl⟩ := NewBloomFilter_ok h
  exact ⟨h1, dvd64_of_pow2 h1 h2, by simp⟩

theorem bf_setBit_spec {bf : BloomFilter} (hv : BFValid bf) {p : Nat}
    (hp : p < bf.size) :
    bf.setBit p = (.ok (), { bf with
      bv := bf.bv.set (p / 64)
        (bf.bv.getD (p / 64) 0 ||| (1 <<< (p &&& 63))) }) := by
  unfold BloomFilter.setBit
  have h0 : ¬ p > usub1 bf.size := by
    rw [usub1_eq_sub_one (by have := hv.hsize; omega)]
    have := hv.hsize
    omega
  have h3 : ¬ p / 64 ≥ bf.bv.length := by
    rw [not_le, hv.hbv]
    exact Nat.div_lt_div_of_lt_of_dvd hv.hdvd hp
  simp [h0, h3]

theorem bf_getBit_spec {bf : BloomFilter} (hv : BFValid bf) {p : Nat}
    (hp : p < bf.size) :
    bf.getBit p =
      .ok ((bf.bv.getD (p / 64) 0 &&& (1 <<< (p &&& 63))) != 0) := by
  unfold BloomFilter.getBit
  have h0 : ¬ p > usub1 bf.size := by
    rw [usub1_eq_sub_one (by have := hv.hsize; omega)]
    have := hv.hsize
    omega
  have h3 : ¬ p / 64 ≥ bf.bv.length := by
    rw [not_le, hv.hbv]
    exact Nat.div_lt_div_of_lt_of_dvd hv.hdvd hp
  simp [h0, h3]

theorem bf_getBit_true {bf : BloomFilter} (hv : BFValid bf) {p : Nat}
    (hp : p < bf.size) (hbit : packedHasBit bf.bv p) :
    bf.getBit p = .ok true := by
  rw [bf_getBit_spec hv hp]
  unfold packedHasBit at hbit
  simp only [GoRes.ok.injEq, bne_iff_ne]
  exact hbit

theorem bf_getBit_true_iff (bf : BloomFilter) (p : Nat) :
    bf.getBit p = .ok true ↔
      (¬ p > usub1 bf.size ∧ p / 64 < bf.bv.length ∧
       packedHasBit bf.bv p) := by
  unfold BloomFilter.getBit packedHasBit
  split_ifs with g1 g4
  · simp [g1]
  · simp [not_lt.mpr g4]
  · simp only [not_le] at g4
    simp [g1, g4, bne_iff_ne]

theorem bf_setBit_frame (bf : BloomFilter) (q : Nat) :
    bfFrame bf (bf.setBit q).2 := by
  unfold BloomFilter.setBit
  split_ifs <;> simp [bfFrame, List.length_set]

theorem bf_setBit_bv_mono (st : BloomFilter) (q : Nat) {p : Nat}
    (hp : packedHasBit st.bv p) : packedHasBit ((st.setBit q).2).bv p := by
  unfold BloomFilter.setBit
  split_ifs <;> first
    | exact hp
    | exact packedHasBit_set_mono st.bv q _ hp

theorem bf_Insert_spec (h : List Nat → Nat) {bf : BloomFilter}
    (hv : BFValid bf) {e : List Nat} (he : e ≠ []) :
    (bf.Insert h e).1 = .ok () ∧ BFValid (bf.Insert h e).2 ∧
    bfFrame bf (bf.Insert h e).2 ∧
    (1 ≤ bf.hf →
      packedHasBit ((bf.Insert h e).2).bv
        (h (maskLast e) &&& usub1 bf.size)) := by
  unfold BloomFilter.Insert
  rw [hashEntry_of_ne_nil h he]
  rcases Nat.eq_zero_or_pos bf.hf with h0 | h1
  · rw [h0]
    exact ⟨rfl, hv, bfFrame_refl bf, by omega⟩
  · have key := insertLoop_replicate BloomFilter.setBit
      (usub1 bf.size) (h (maskLast e))
      (fun st => BFValid st ∧ bfFrame bf st)
      (fun st => packedHasBit st.bv (h (maskLast e) &&& usub1 bf.size))
      (fun st hq => ?hset) bf.hf bf ⟨hv, bfFrame_refl bf⟩ h1
    · exact ⟨key.1, key.2.1.1, key.2.1.2, fun _ => key.2.2⟩
    case hset =>
      obtain ⟨hqv, hqf⟩ := hq
      have hmask : usub1 bf.size = bf.size - 1 :=
        usub1_eq_sub_one (by have := hv.hsize; omega)
      have hple : h (maskLast e) &&& usub1 bf.size < st.size := by
        have h1 : h (maskLast e) &&& usub1 bf.size ≤ usub1 bf.size :=
          Nat.and_le_right
        have h2 := hv.hsize
        have h3 := hqf.1
        omega
      rw [bf_setBit_spec hqv hple]
      refine ⟨rfl, ⟨BFValid_frame hqv ?_, bfFrame_trans hqf ?_⟩, ?_⟩
      · exact ⟨rfl, rfl, by simp [List.length_set]⟩
      · exact ⟨rfl, rfl, by simp [List.length_set]⟩
      · apply packedHasBit_set_self
        rw [hqv.hbv]
        exact Nat.div_lt_div_of_lt_of_dvd hqv.hdvd hple

theorem bf_InsertAsync_spec (h : List Nat → Nat) {bf : BloomFilter}
    (hv : BFValid bf) {e : List Nat} (he : e ≠ []) :
    (bf.InsertAsync h e).1 = .ok () ∧ BFValid (bf.InsertAsync h e).2 ∧
    bfFrame bf (bf.InsertAsync h e).2 := by
  unfold BloomFilter.InsertAsync
  rw [hashEntry_of_ne_nil h he]
  have key := insertLoop_ok BloomFilter.setBitAsync
    (usub1 bf.size) (fun st => BFValid st ∧ bfFrame bf st)
    (fun st q hq hle => ?hset)
    (List.replicate bf.hf (h (maskLast e))) bf ⟨hv, bfFrame_refl bf⟩
  · exact ⟨key.1, key.2.1, key.2.2⟩
  case hset =>
    obtain ⟨hqv, hqf⟩ := hq
    have hmask : usub1 bf.size = bf.size - 1 :=
      usub1_eq_sub_one (by have := hv.hsize; omega)
    have hple : q < st.size := by
      have h2 := hv.hsize
      have h3 := hqf.1
      omega
    unfold BloomFilter.setBitAsync
    rw [bf_setBit_spec hqv hple]
    refine ⟨rfl, BFValid_frame hqv ?_, bfFrame_trans hqf ?_⟩
    · exact ⟨rfl, rfl, by simp [List.length_set]⟩
    · exact ⟨rfl, rfl, by simp [List.length_set]⟩

theorem bf_Lookup_true (h : List Nat → Nat) {bf : BloomFilter}
    (hv : BFValid bf) {e : List Nat} (he : e ≠ [])
    (hbit : 1 ≤ bf.hf →
      packedHasBit bf.bv (h (maskLast e) &&& usub1 bf.size)) :
    bf.Lookup h e = .ok true := by
  unfold BloomFilter.Lookup
  rw [hashEntry_of_ne_nil h he]
  apply lookupLoop_true
  intro hw hmem
  have hweq : hw = h (maskLast e) := List.eq_of_mem_replicate hmem
  have hfpos : 1 ≤ bf.hf := by
    rcases Nat.eq_zero_or_pos bf.hf with h0 | h1
    · rw [h0] at hmem
      simp at hmem
    · exact h1
  have hple : hw &&& usub1 bf.size < bf.size := by
    have h1 : hw &&& usub1 bf.size ≤ usub1 bf.size := Nat.and_le_right
    have h2 := hv.hsize
    have h3 := usub1_eq_sub_one (n := bf.size) (by omega)
    omega
  rw [hweq]
  exact bf_getBit_true hv (hweq ▸ hple) (hbit hfpos)

theorem bf_Insert_frame (h : List Nat → Nat) (bf : BloomFilter)
    (e : List Nat) : bfFrame bf ((bf.Insert h e).2) := by
  unfold BloomFilter.Insert
  cases hE : hashEntry h e bf.hf with
  | none => exact bfFrame_refl bf
  | some hs =>
    exact insertLoop_mono _ _ (bfFrame bf)
      (fun st q hp => bfFrame_trans hp (bf_setBit_frame st q))
      hs bf (bfFrame_refl bf)

theorem bf_InsertAsync_frame (h : List Nat → Nat) (bf : BloomFilter)
    (e : List Nat) : bfFrame bf ((bf.InsertAsync h e).2) := by
  unfold BloomFilter.InsertAsync
  cases hE : hashEntry h e bf.hf with
  | none => exact bfFrame_refl bf
  | some hs =>
    refine insertLoop_mono _ _ (bfFrame bf)
      (fun st q hp => bfFrame_trans hp ?_) hs bf (bfFrame_refl bf)
    unfold BloomFilter.setBitAsync
    exact bf_setBit_frame st q

theorem bf_Insert_bv_mono (h : List Nat → Nat) (bf : BloomFilter)
    (e : List Nat) {p : Nat} (hp : packedHasBit bf.bv p) :
    packedHasBit ((bf.Insert h e).2).bv p := by
  unfold BloomFilter.Insert
  cases hE : hashEntry h e bf.hf with
  | none => exact hp
  | some hs =>
    exact insertLoop_mono _ _ (fun st => packedHasBit st.bv p)
      (fun st q hq => bf_setBit_bv_mono st q hq) hs bf hp

theorem bf_InsertAsync_bv_mono (h : List Nat → Nat) (bf : BloomFilter)
    (e : List Nat) {p : Nat} (hp : packedHasBit bf.bv p) :
    packedHasBit ((bf.InsertAsync h e).2).bv p := by
  unfold BloomFilter.InsertAsync
  cases hE : hashEntry h e bf.hf with
  | none => exact hp
  | some hs =>
    refine insertLoop_mono _ _ (fun st => packedHasBit st.bv p)
      (fun st q hq => ?_) hs bf hp
    unfold BloomFilter.setBitAsync
    exact bf_setBit_bv_mono st q hq

theorem bf_Load_frame (bf : BloomFilter) (stream : List Nat) :
    bfFrame bf ((bf.Load stream).2) := by
  unfold BloomFilter.Load
  dsimp only
  split
  · exact bfFrame_refl bf
  · exact loadLoop_mono _ (bfFrame bf)
      (fun st q hp => bfFrame_trans hp (bf_setBit_frame st q))
      _ 0 bf (bfFrame_refl bf)

theorem bf_Load_bv_mono (bf : BloomFilter) (stream : List Nat) {p : Nat}
    (hp : packedHasBit bf.bv p) :
    packedHasBit ((bf.Load stream).2).bv p := by
  unfold BloomFilter.Load
  dsimp only
  split
  · exact hp
  · exact loadLoop_mono _ (fun st => packedHasBit st.bv p)
      (fun st q hq => bf_setBit_bv_mono st q hq) _ 0 bf hp

theorem bf_Insert_get_mono (h : List Nat → Nat) (bf : BloomFilter)
    (e : List Nat) (p : Nat) (hg : bf.getBit p = .ok true) :
    ((bf.Insert h e).2).getBit p = .ok true := by
  rw [bf_getBit_true_iff] at hg ⊢
  obtain ⟨g1, g4, g5⟩ := hg
  obtain ⟨e1, e4, e5⟩ := bf_Insert_frame h bf e
  refine ⟨by rw [e1]; exact g1, by rw [e5]; exact g4,
    bf_Insert_bv_mono h bf e g5⟩

theorem bf_InsertAsync_get_mono (h : List Nat → Nat) (bf : BloomFilter)
    (e : List Nat) (p : Nat) (hg : bf.getBit p = .ok true) :
    ((bf.InsertAsync h e).2).getBit p = .ok true := by
  rw [bf_getBit_true_iff] at hg ⊢
  obtain ⟨g1, g4, g5⟩ := hg
  obtain ⟨e1, e4, e5⟩ := bf_InsertAsync_frame h bf e
  refine ⟨by rw [e1]; exact g1, by rw [e5]; exact g4,
    bf_InsertAsync_bv_mono h bf e g5⟩

theorem bf_Load_get_mono (bf : BloomFilter) (stream : List Nat) (p : Nat)
    (hg : bf.getBit p = .ok true) :
    ((bf.Load stream).2).getBit p = .ok true := by
  rw [bf_getBit_true_iff] at hg ⊢
  obtain ⟨g1, g4, g5⟩ := hg
  obtain ⟨e1, e4, e5⟩ := bf_Load_frame bf stream
  refine ⟨by rw [e1]; exact g1, by rw [e5]; exact g4,
    bf_Load_bv_mono bf stream g5⟩

def BloomFilter.insertAll (h : List Nat → Nat) :
    BloomFilter → List (List Nat) → BloomFilter
  | bf, [] => bf
  | bf, k :: rest => BloomFilter.insertAll h (bf.Insert h k).2 rest

theorem bf_insertAll_bv_mono (h : List Nat → Nat) :
    ∀ (ks : List (List Nat)) (bf : BloomFilter) {p : Nat},
      packedHasBit bf.bv p →
      packedHasBit (BloomFilter.insertAll h bf ks).bv p
  | [], _, _, hp => hp
  | k :: rest, bf, _, hp =>
    bf_insertAll_bv_mono h rest (bf.Insert h k).2
      (bf_Insert_bv_mono h bf k hp)

theorem bf_insertAll_spec (h : List Nat → Nat) :
    ∀ (ks : List (List Nat)) (bf : BloomFilter), BFValid bf →
      (∀ k ∈ ks, k ≠ []) →
      BFValid (BloomFilter.insertAll h bf ks) ∧
      bfFrame bf (BloomFilter.insertAll h bf ks) ∧
      (∀ key ∈ ks, 1 ≤ bf.hf →
        packedHasBit (BloomFilter.insertAll h bf ks).bv
          (h (maskLast key) &&& usub1 bf.size))
  | [], bf, hv, _ => ⟨hv, bfFrame_refl bf, by simp⟩
  | k :: rest, bf, hv, hne => by
    have hkne : k ≠ [] := hne k (by simp)
    obtain ⟨hok, hv2, hfr2, hbit⟩ := bf_Insert_spec h hv hkne
    obtain ⟨ihv, ihfr, ihbit⟩ := bf_insertAll_spec h rest (bf.Insert h k).2
      hv2 (fun k2 hk2 => hne k2 (by simp [hk2]))
    refine ⟨ihv, bfFrame_trans hfr2 ihfr, ?_⟩
    intro key hkey hhf
    simp only [BloomFilter.insertAll]
    rcases List.mem_cons.1 hkey with rfl | hkey2
    · exact bf_insertAll_bv_mono h rest (bf.Insert h key).2 (hbit hhf)
    · have := ihbit key hkey2 (by rw [hfr2.2.1]; exact hhf)
      rw [hfr2.1] at this
      exact this

theorem bf_Insert_no_gerr (h : List Nat → Nat) {bf : BloomFilter}
    (hv : BFValid bf) (e : List Nat) (er : GoErr) :
    (bf.Insert h e).1 ≠ .gerr er := by
  unfold BloomFilter.Insert
  cases hE : hashEntry h e bf.hf with
  | none => simp
  | some hs =>
    have key := insertLoop_ok BloomFilter.setBit
      (usub1 bf.size) (fun st => BFValid st ∧ bfFrame bf st)
      (fun st q hq hle => ?hset) hs bf ⟨hv, bfFrame_refl bf⟩
    · show (insertLoop BloomFilter.setBit
        (usub1 bf.size) hs bf).1 ≠ .gerr er
      rw [key.1]
      simp
    case hset =>
      obtain ⟨hqv, hqf⟩ := hq
      have hmask : usub1 bf.size = bf.size - 1 :=
        usub1_eq_sub_one (by have := hv.hsize; omega)
      have hple : q < st.size := by
        have h2 := hv.hsize
        have h3 := hqf.1
        omega
      rw [bf_setBit_spec hqv hple]
      refine ⟨rfl, BFValid_frame hqv ?_, bfFrame_trans hqf ?_⟩
      · exact ⟨rfl, rfl, by simp [List.length_set]⟩
      · exact ⟨rfl, rfl, by simp [List.length_set]⟩

theorem bf_Lookup_no_gerr (h : List Nat → Nat) {bf : BloomFilter}
    (hv : BFValid bf) (e : List Nat) (er : GoErr) :
    bf.Lookup h e ≠ .gerr er := by
  unfold BloomFilter.Lookup
  cases hE : hashEntry h e bf.hf with
  | none => simp
  | some hs =>
    have key := lookupLoop_ok bf.getBit (usub1 bf.size) hs ?hget
    · obtain ⟨b, hb⟩ := key
      show lookupLoop bf.getBit (usub1 bf.size) hs ≠ .gerr er
      rw [hb]
      simp
    case hget =>
      intro hw _
      have hple : hw &&& usub1 bf.size < bf.size := by
        have h1 : hw &&& usub1 bf.size ≤ usub1 bf.size := Nat.and_le_right
        have h2 := hv.hsize
        have h3 := usub1_eq_sub_one (n := bf.size) (by omega)
        omega
      exact ⟨_, bf_getBit_spec hv hple⟩

/-! ## NaiveStripedBloomFilter lemmas -/

structure NSBFValid (bf : NaiveStripedBloomFilter) : Prop where
  hsize : 64 ≤ bf.size
  hbv : bf.bv.length = bf.size
  hshard : bf.shardLen * bf.shards = bf.size
  hshardPos : 0 < bf.shardLen

def nsbfFrame (a b : NaiveStripedBloomFilter) : Prop :=
  b.size = a.size ∧ b.shards = a.shards ∧ b.shardLen = a.shardLen ∧
  b.hf = a.hf ∧ b.bv.length = a.bv.length

theorem nsbfFrame_refl (a : NaiveStripedBloomFilter) : nsbfFrame a a :=
  ⟨rfl, rfl, rfl, rfl, rfl⟩

theorem nsbfFrame_trans {a b c : NaiveStripedBloomFilter}
    (h1 : nsbfFrame a b) (h2 : nsbfFrame b c) : nsbfFrame a c := by
  obtain ⟨e1, e2, e3, e4, e5⟩ := h1
  obtain ⟨f1, f2, f3, f4, f5⟩ := h2
  exact ⟨f1.trans e1, f2.trans e2, f3.trans e3, f4.trans e4, f5.trans e5⟩

theorem NSBFValid_frame {a b : NaiveStripedBloomFilter} (hv : NSBFValid a)
    (hf : nsbfFrame a b) : NSBFValid b := by
  obtain ⟨e1, e2, e3, e4, e5⟩ := hf
  exact ⟨e1 ▸ hv.hsize, by rw [e5, e1, hv.hbv],
    by rw [e3, e2, e1, hv.hshard], e3 ▸ hv.hshardPos⟩

theorem NewNaiveStripedBloomFilter_ok {size hf shards : Nat}
    {bf : NaiveStripedBloomFilter}
    (h : NewNaiveStripedBloomFilter size hf shards = .ok bf) :
    64 ≤ size ∧ shards ≠ 0 ∧ shards ≤ size / 64 ∧ size % shards = 0 ∧
    bf = { bv := List.replicate size 0, size := size, shards := shards,
           hf := hf, shardLen := size / shards } := by
  unfold NewNaiveStripedBloomFilter at h
  split_ifs at h with h1 h2 h3 h4 h5 h6
  any_goals cases h
  exact ⟨by omega, h5, by omega, by omega, rfl⟩

theorem NSBFValid_of_new {size hf shards : Nat}
    {bf : NaiveStripedBloomFilter}
    (h : NewNaiveStripedBloomFilter size hf shards = .ok bf) :
    NSBFValid bf := by
  obtain ⟨h1, h2, h3, h4, rfl⟩ := NewNaiveStripedBloomFilter_ok h
  constructor
  · exact h1
  · simp
  · exact Nat.div_mul_cancel (Nat.dvd_of_mod_eq_zero h4)
  · exact Nat.div_pos (le_trans h3 (Nat.div_le_self _ _)) (by omega)

theorem nsbf_setByte_spec {bf : NaiveStripedBloomFilter}
    (hv : NSBFValid bf) {p : Nat} (hp : p < bf.size) :
    bf.setByte p = (.ok (), { bf with bv := bf.bv.set p 1 }) := by
  unfold NaiveStripedBloomFilter.setByte
  have h0 : ¬ p > usub1 bf.size := by
    rw [usub1_eq_sub_one (by have := hv.hsize; omega)]
    omega
  have h1 : ¬ bf.shardLen = 0 := by
    have := hv.hshardPos
    omega
  have h2 : ¬ p / bf.shardLen ≥ bf.shards := by
    rw [not_le, Nat.div_lt_iff_lt_mul hv.hshardPos, Nat.mul_comm, hv.hshard]
    exact hp
  have h3 : ¬ p ≥ bf.bv.length := by
    rw [not_le, hv.hbv]
    exact hp
  simp [h0, h1, h2, h3]

theorem nsbf_setByteAsync_spec {bf : NaiveStripedBloomFilter}
    (hv : NSBFValid bf) {p : Nat} (hp : p < bf.size) :
    bf.setByteAsync p = (.ok (), { bf with bv := bf.bv.set p 1 }) := by
  unfold NaiveStripedBloomFilter.setByteAsync
  have h0 : ¬ p > usub1 bf.size := by
    rw [usub1_eq_sub_one (by have := hv.hsize; omega)]
    omega
  have h3 : ¬ p ≥ bf.bv.length := by
    rw [not_le, hv.hbv]
    exact hp
  simp [h0, h3]

theorem nsbf_getByte_spec {bf : NaiveStripedBloomFilter}
    (hv : NSBFValid bf) {p : Nat} (hp : p < bf.size) :
    bf.getByte p = .ok (bf.bv.getD p 0 == 1) := by
  unfold NaiveStripedBloomFilter.getByte
  have h0 : ¬ p > usub1 bf.size := by
    rw [usub1_eq_sub_one (by have := hv.hsize; omega)]
    omega
  have h1 : ¬ bf.shardLen = 0 := by
    have := hv.hshardPos
    omega
  have h2 : ¬ p / bf.shardLen ≥ bf.shards := by
    rw [not_le, Nat.div_lt_iff_lt_mul hv.hshardPos, Nat.mul_comm, hv.hshard]
    exact hp
  have h3 : ¬ p ≥ bf.bv.length := by
    rw [not_le, hv.hbv]
    exact hp
  simp [h0, h1, h2, h3]

theorem nsbf_getByte_true {bf : NaiveStripedBloomFilter}
    (hv : NSBFValid bf) {p : Nat} (hp : p < bf.size)
    (hbit : byteHasFlag bf.bv p) : bf.getByte p = .ok true := by
  rw [nsbf_getByte_spec hv hp]
  unfold byteHasFlag at hbit
  simp only [GoRes.ok.injEq, beq_iff_eq]
  exact hbit

theorem nsbf_getByte_true_iff (bf : NaiveStripedBloomFilter) (p : Nat) :
    bf.getByte p = .ok true ↔
      (¬ p > usub1 bf.size ∧ bf.shardLen ≠ 0 ∧
       p / bf.shardLen < bf.shards ∧ p < bf.bv.length ∧
       byteHasFlag bf.bv p) := by
  unfold NaiveStripedBloomFilter.getByte byteHasFlag
  split_ifs with g1 g2 g3 g4
  · simp [g1]
  · simp [g2]
  · simp [not_lt.mpr g3]
  · simp [not_lt.mpr g4]
  · simp only [not_le] at g3 g4
    simp [g1, g2, g3, g4]

theorem nsbf_setByte_frame (bf : NaiveStripedBloomFilter) (q : Nat) :
    nsbfFrame bf (bf.setByte q).2 := by
  unfold NaiveStripedBloomFilter.setByte
  split_ifs <;> simp [nsbfFrame, List.length_set]

theorem nsbf_setByteAsync_frame (bf : NaiveStripedBloomFilter) (q : Nat) :
    nsbfFrame bf (bf.setByteAsync q).2 := by
  unfold NaiveStripedBloomFilter.setByteAsync
  split_ifs <;> simp [nsbfFrame, List.length_set]

theorem nsbf_setByte_bv_mono (st : NaiveStripedBloomFilter) (q : Nat)
    {p : Nat} (hp : byteHasFlag st.bv p) :
    byteHasFlag ((st.setByte q).2).bv p := by
  unfold NaiveStripedBloomFilter.setByte
  split_ifs <;> first
    | exact hp
    | exact byteHasFlag_set_mono st.bv q hp

theorem nsbf_setByteAsync_bv_mono (st : NaiveStripedBloomFilter) (q : Nat)
    {p : Nat} (hp : byteHasFlag st.bv p) :
    byteHasFlag ((st.setByteAsync q).2).bv p := by
  unfold NaiveStripedBloomFilter.setByteAsync
  split_ifs <;> first
    | exact hp
    | exact byteHasFlag_set_mono st.bv q hp

theorem nsbf_Insert_spec (h : List Nat → Nat)
    {bf : NaiveStripedBloomFilter} (hv : NSBFValid bf) {e : List Nat}
    (he : e ≠ []) :
    (bf.Insert h e).1 = .ok () ∧ NSBFValid (bf.Insert h e).2 ∧
    nsbfFrame bf (bf.Insert h e).2 ∧
    (1 ≤ bf.hf →
      byteHasFlag ((bf.Insert h e).2).bv
        (h (maskLast e) &&& usub1 bf.size)) := by
  unfold NaiveStripedBloomFilter.Insert
  rw [hashEntry_of_ne_nil h he]
  rcases Nat.eq_zero_or_pos bf.hf with h0 | h1
  · rw [h0]
    exact ⟨rfl, hv, nsbfFrame_refl bf, by omega⟩
  · have key := insertLoop_replicate NaiveStripedBloomFilter.setByte
      (usub1 bf.size) (h (maskLast e))
      (fun st => NSBFValid st ∧ nsbfFrame bf st)
      (fun st => byteHasFlag st.bv (h (maskLast e) &&& usub1 bf.size))
      (fun st hq => ?hset) bf.hf bf ⟨hv, nsbfFrame_refl bf⟩ h1
    · exact ⟨key.1, key.2.1.1, key.2.1.2, fun _ => key.2.2⟩
    case hset =>
      obtain ⟨hqv, hqf⟩ := hq
      have hmask : usub1 bf.size = bf.size - 1 :=
        usub1_eq_sub_one (by have := hv.hsize; omega)
      have hple : h (maskLast e) &&& usub1 bf.size < st.size := by
        have h1 : h (maskLast e) &&& usub1 bf.size ≤ usub1 bf.size :=
          Nat.and_le_right
        have h2 := hv.hsize
        have h3 := hqf.1
        omega
      rw [nsbf_setByte_spec hqv hple]
      refine ⟨rfl, ⟨NSBFValid_frame hqv ?_, nsbfFrame_trans hqf ?_⟩, ?_⟩
      · exact ⟨rfl, rfl, rfl, rfl, by simp [List.length_set]⟩
      · exact ⟨rfl, rfl, rfl, rfl, by simp [List.length_set]⟩
      · unfold byteHasFlag
        apply getD_set_self
        rw [hqv.hbv]
        exact hple

theorem nsbf_InsertAsync_spec (h : List Nat → Nat)
    {bf : NaiveStripedBloomFilter} (hv : NSBFValid bf) {e : List Nat}
    (he : e ≠ []) :
    (bf.InsertAsync h e).1 = .ok () ∧ NSBFValid (bf.InsertAsync h e).2 ∧
    nsbfFrame bf (bf.InsertAsync h e).2 := by
  unfold NaiveStripedBloomFilter.InsertAsync
  rw [hashEntry_of_ne_nil h he]
  have key := insertLoop_ok NaiveStripedBloomFilter.setByteAsync
    (usub1 bf.size) (fun st => NSBFValid st ∧ nsbfFrame bf st)
    (fun st q hq hle => ?hset)
    (List.replicate bf.hf (h (maskLast e))) bf ⟨hv, nsbfFrame_refl bf⟩
  · exact ⟨key.1, key.2.1, key.2.2⟩
  case hset =>
    obtain ⟨hqv, hqf⟩ := hq
    have hmask : usub1 bf.size = bf.size - 1 :=
      usub1_eq_sub_one (by have := hv.hsize; omega)
    have hple : q < st.size := by
      have h2 := hv.hsize
      have h3 := hqf.1
      omega
    rw [nsbf_setByteAsync_spec hqv hple]
    refine ⟨rfl, NSBFValid_frame hqv ?_, nsbfFrame_trans hqf ?_⟩
    · exact ⟨rfl, rfl, rfl, rfl, by simp [List.length_set]⟩
    · exact ⟨rfl, rfl, rfl, rfl, by simp [List.length_set]⟩

theorem nsbf_Lookup_true (h : List Nat → Nat)
    {bf : NaiveStripedBloomFilter} (hv : NSBFValid bf) {e : List Nat}
    (he : e ≠ [])
    (hbit : 1 ≤ bf.hf →
      byteHasFlag bf.bv (h (maskLast e) &&& usub1 bf.size)) :
    bf.Lookup h e = .ok true := by
  unfold NaiveStripedBloomFilter.Lookup
  rw [hashEntry_of_ne_nil h he]
  apply lookupLoop_true
  intro hw hmem
  have hweq : hw = h (maskLast e) := List.eq_of_mem_replicate hmem
  have hfpos : 1 ≤ bf.hf := by
    rcases Nat.eq_zero_or_pos bf.hf with h0 | h1
    · rw [h0] at hmem
      simp at hmem
    · exact h1
  have hple : hw &&& usub1 bf.size < bf.size := by
    have h1 : hw &&& usub1 bf.size ≤ usub1 bf.size := Nat.and_le_right
    have h2 := hv.hsize
    have h3 := usub1_eq_sub_one (n := bf.size) (by omega)
    omega
  rw [hweq]
  exact nsbf_getByte_true hv (hweq ▸ hple) (hbit hfpos)

theorem nsbf_Insert_frame (h : List Nat → Nat)
    (bf : NaiveStripedBloomFilter) (e : List Nat) :
    nsbfFrame bf ((bf.Insert h e).2) := by
  unfold NaiveStripedBloomFilter.Insert
  cases hE : hashEntry h e bf.hf with
  | none => exact nsbfFrame_refl bf
  | some hs =>
    exact insertLoop_mono _ _ (nsbfFrame bf)
      (fun st q hp => nsbfFrame_trans hp (nsbf_setByte_frame st q))
      hs bf (nsbfFrame_refl bf)

theorem nsbf_InsertAsync_frame (h : List Nat → Nat)
    (bf : NaiveStripedBloomFilter) (e : List Nat) :
    nsbfFrame bf ((bf.InsertAsync h e).2) := by
  unfold NaiveStripedBloomFilter.InsertAsync
  cases hE : hashEntry h e bf.hf with
  | none => exact nsbfFrame_refl bf
  | some hs =>
    exact insertLoop_mono _ _ (nsbfFrame bf)
      (fun st q hp => nsbfFrame_trans hp (nsbf_setByteAsync_frame st q))
      hs bf (nsbfFrame_refl bf)

theorem nsbf_Insert_bv_mono (h : List Nat → Nat)
    (bf : NaiveStripedBloomFilter) (e : List Nat) {p : Nat}
    (hp : byteHasFlag bf.bv p) :
    byteHasFlag ((bf.Insert h e).2).bv p := by
  unfold NaiveStripedBloomFilter.Insert
  cases hE : hashEntry h e bf.hf with
  | none => exact hp
  | some hs =>
    exact insertLoop_mono _ _ (fun st => byteHasFlag st.bv p)
      (fun st q hq => nsbf_setByte_bv_mono st q hq) hs bf hp

theorem nsbf_InsertAsync_bv_mono (h : List Nat → Nat)
    (bf : NaiveStripedBloomFilter) (e : List Nat) {p : Nat}
    (hp : byteHasFlag bf.bv p) :
    byteHasFlag ((bf.InsertAsync h e).2).bv p := by
  unfold NaiveStripedBloomFilter.InsertAsync
  cases hE : hashEntry h e bf.hf with
  | none => exact hp
  | some hs =>
    exact insertLoop_mono _ _ (fun st => byteHasFlag st.bv p)
      (fun st q hq => nsbf_setByteAsync_bv_mono st q hq) hs bf hp

theorem nsbf_Load_frame (bf : NaiveStripedBloomFilter)
    (stream : List Nat) : nsbfFrame bf ((bf.Load stream).2) := by
  unfold NaiveStripedBloomFilter.Load
  dsimp only
  split
  · exact nsbfFrame_refl bf
  · exact loadLoop_mono _ (nsbfFrame bf)
      (fun st q hp => nsbfFrame_trans hp (nsbf_setByte_frame st q))
      _ 0 bf (nsbfFrame_refl bf)

theorem nsbf_Load_bv_mono (bf : NaiveStripedBloomFilter)
    (stream : List Nat) {p : Nat} (hp : byteHasFlag bf.bv p) :
    byteHasFlag ((bf.Load stream).2).bv p := by
  unfold NaiveStripedBloomFilter.Load
  dsimp only
  split
  · exact hp
  · exact loadLoop_mono _ (fun st => byteHasFlag st.bv p)
      (fun st q hq => nsbf_setByte_bv_mono st q hq) _ 0 bf hp

theorem nsbf_Insert_get_mono (h : List Nat → Nat)
    (bf : NaiveStripedBloomFilter) (e : List Nat) (p : Nat)
    (hg : bf.getByte p = .ok true) :
    ((bf.Insert h e).2).getByte p = .ok true := by
  rw [nsbf_getByte_true_iff] at hg ⊢
  obtain ⟨g1, g2, g3, g4, g5⟩ := hg
  obtain ⟨e1, e2, e3, e4, e5⟩ := nsbf_Insert_frame h bf e
  refine ⟨by rw [e1]; exact g1, by rw [e3]; exact g2, ?_, ?_, ?_⟩
  · rw [e3, e2]
    exact g3
  · rw [e5]
    exact g4
  · exact nsbf_Insert_bv_mono h bf e g5

theorem nsbf_InsertAsync_get_mono (h : List Nat → Nat)
    (bf : NaiveStripedBloomFilter) (e : List Nat) (p : Nat)
    (hg : bf.getByte p = .ok true) :
    ((bf.InsertAsync h e).2).getByte p = .ok true := by
  rw [nsbf_getByte_true_iff] at hg ⊢
  obtain ⟨g1, g2, g3, g4, g5⟩ := hg
  obtain ⟨e1, e2, e3, e4, e5⟩ := nsbf_InsertAsync_frame h bf e
  refine ⟨by rw [e1]; exact g1, by rw [e3]; exact g2, ?_, ?_, ?_⟩
  · rw [e3, e2]
    exact g3
  · rw [e5]
    exact g4
  · exact nsbf_InsertAsync_bv_mono h bf e g5

theorem nsbf_Load_get_mono (bf : NaiveStripedBloomFilter)
    (stream : List Nat) (p : Nat) (hg : bf.getByte p = .ok true) :
    ((bf.Load stream).2).getByte p = .ok true := by
  rw [nsbf_getByte_true_iff] at hg ⊢
  obtain ⟨g1, g2, g3, g4, g5⟩ := hg
  obtain ⟨e1, e2, e3, e4, e5⟩ := nsbf_Load_frame bf stream
  refine ⟨by rw [e1]; exact g1, by rw [e3]; exact g2, ?_, ?_, ?_⟩
  · rw [e3, e2]
    exact g3
  · rw [e5]
    exact g4
  · exact nsbf_Load_bv_mono bf stream g5

def NaiveStripedBloomFilter.insertAll (h : List Nat → Nat) :
    NaiveStripedBloomFilter → List (List Nat) → NaiveStripedBloomFilter
  | bf, [] => bf
  | bf, k :: rest =>
    NaiveStripedBloomFilter.insertAll h (bf.Insert h k).2 rest

theorem nsbf_insertAll_bv_mono (h : List Nat → Nat) :
    ∀ (ks : List (List Nat)) (bf : NaiveStripedBloomFilter) {p : Nat},
      byteHasFlag bf.bv p →
      byteHasFlag (NaiveStripedBloomFilter.insertAll h bf ks).bv p
  | [], _, _, hp => hp
  | k :: rest, bf, _, hp =>
    nsbf_insertAll_bv_mono h rest (bf.Insert h k).2
      (nsbf_Insert_bv_mono h bf k hp)

theorem nsbf_insertAll_spec (h : List Nat → Nat) :
    ∀ (ks : List (List Nat)) (bf : NaiveStripedBloomFilter),
      NSBFValid bf → (∀ k ∈ ks, k ≠ []) →
      NSBFValid (NaiveStripedBloomFilter.insertAll h bf ks) ∧
      nsbfFrame bf (NaiveStripedBloomFilter.insertAll h bf ks) ∧
      (∀ key ∈ ks, 1 ≤ bf.hf →
        byteHasFlag (NaiveStripedBloomFilter.insertAll h bf ks).bv
          (h (maskLast key) &&& usub1 bf.size))
  | [], bf, hv, _ => ⟨hv, nsbfFrame_refl bf, by simp⟩
  | k :: rest, bf, hv, hne => by
    have hkne : k ≠ [] := hne k (by simp)
    obtain ⟨hok, hv2, hfr2, hbit⟩ := nsbf_Insert_spec h hv hkne
    obtain ⟨ihv, ihfr, ihbit⟩ := nsbf_insertAll_spec h rest
      (bf.Insert h k).2 hv2 (fun k2 hk2 => hne k2 (by simp [hk2]))
    refine ⟨ihv, nsbfFrame_trans hfr2 ihfr, ?_⟩
    intro key hkey hhf
    simp only [NaiveStripedBloomFilter.insertAll]
    rcases List.mem_cons.1 hkey with rfl | hkey2
    · exact nsbf_insertAll_bv_mono h rest (bf.Insert h key).2 (hbit hhf)
    · have := ihbit key hkey2 (by rw [hfr2.2.2.2.1]; exact hhf)
      rw [hfr2.1] at this
      exact this

theorem nsbf_Insert_no_gerr (h : List Nat → Nat)
    {bf : NaiveStripedBloomFilter} (hv : NSBFValid bf) (e : List Nat)
    (er : GoErr) : (bf.Insert h e).1 ≠ .gerr er := by
  unfold NaiveStripedBloomFilter.Insert
  cases hE : hashEntry h e bf.hf with
  | none => simp
  | some hs =>
    have key := insertLoop_ok NaiveStripedBloomFilter.setByte
      (usub1 bf.size) (fun st => NSBFValid st ∧ nsbfFrame bf st)
      (fun st q hq hle => ?hset) hs bf ⟨hv, nsbfFrame_refl bf⟩
    · show (insertLoop NaiveStripedBloomFilter.setByte
        (usub1 bf.size) hs bf).1 ≠ .gerr er
      rw [key.1]
      simp
    case hset =>
      obtain ⟨hqv, hqf⟩ := hq
      have hmask : usub1 bf.size = bf.size - 1 :=
        usub1_eq_sub_one (by have := hv.hsize; omega)
      have hple : q < st.size := by
        have h2 := hv.hsize
        have h3 := hqf.1
        omega
      rw [nsbf_setByte_spec hqv hple]
      refine ⟨rfl, NSBFValid_frame hqv ?_, nsbfFrame_trans hqf ?_⟩
      · exact ⟨rfl, rfl, rfl, rfl, by simp [List.length_set]⟩
      · exact ⟨rfl, rfl, rfl, rfl, by simp [List.length_set]⟩

theorem nsbf_Lookup_no_gerr (h : List Nat → Nat)
    {bf : NaiveStripedBloomFilter} (hv : NSBFValid bf) (e : List Nat)
    (er : GoErr) : bf.Lookup h e ≠ .gerr er := by
  unfold NaiveStripedBloomFilter.Lookup
  cases hE : hashEntry h e bf.hf with
  | none => simp
  | some hs =>
    have key := lookupLoop_ok bf.getByte (usub1 bf.size) hs ?hget
    · obtain ⟨b, hb⟩ := key
      show lookupLoop bf.getByte (usub1 bf.size) hs ≠ .gerr er
      rw [hb]
      simp
    case hget =>
      intro hw _
      have hple : hw &&& usub1 bf.size < bf.size := by
        have h1 : hw &&& usub1 bf.size ≤ usub1 bf.size := Nat.and_le_right
        have h2 := hv.hsize
        have h3 := usub1_eq_sub_one (n := bf.size) (by omega)
        omega
      exact ⟨_, nsbf_getByte_spec hv hple⟩

/-! ## NaiveBloomFilter lemmas -/

structure NBFValid (bf : NaiveBloomFilter) : Prop where
  hsize : 64 ≤ bf.size
  hbv : bf.bv.length = bf.size

def nbfFrame (a b : NaiveBloomFilter) : Prop :=
  b.size = a.size ∧ b.hf = a.hf ∧ b.bv.length = a.bv.length

theorem nbfFrame_refl (a : NaiveBloomFilter) : nbfFrame a a :=
  ⟨rfl, rfl, rfl⟩

theorem nbfFrame_trans {a b c : NaiveBloomFilter} (h1 : nbfFrame a b)
    (h2 : nbfFrame b c) : nbfFrame a c :=
  ⟨h2.1.trans h1.1, h2.2.1.trans h1.2.1, h2.2.2.trans h1.2.2⟩

theorem NBFValid_frame {a b : NaiveBloomFilter} (hv : NBFValid a)
    (hf : nbfFrame a b) : NBFValid b :=
  ⟨hf.1 ▸ hv.hsize, by rw [hf.2.2, hf.1, hv.hbv]⟩

theorem NewNaiveBloomFilter_ok {size hf : Nat} {bf : NaiveBloomFilter}
    (h : NewNaiveBloomFilter size hf = .ok bf) :
    64 ≤ size ∧ size &&& (size - 1) = 0 ∧
    bf = { bv := List.replicate size 0, size := size, hf := hf } := by
  unfold NewNaiveBloomFilter at h
  split_ifs at h with h1 h2
  any_goals cases h
  rw [usub1_eq_sub_one (by omega)] at h2
  exact ⟨by omega, by omega, rfl⟩

theorem NBFValid_of_new {size hf : Nat} {bf : NaiveBloomFilter}
    (h : NewNaiveBloomFilter size hf = .ok bf) : NBFValid bf := by
  obtain ⟨h1, _, rfl⟩ := NewNaiveBloomFilter_ok h
  exact ⟨h1, by simp⟩

/-- For an in-range position the `int(idx)` guard does not fire (the
reinterpreted index stays below the length) and the write succeeds. -/
theorem nbf_setByte_spec {bf : NaiveBloomFilter} (hv : NBFValid bf)
    {p : Nat} (hp : p < bf.size) :
    bf.setByte p = (.ok (), { bf with bv := bf.bv.set p 1 }) := by
  unfold NaiveBloomFilter.setByte
  have h0 : ¬ toInt64 p ≥ (bf.bv.length : Int) := by
    rw [not_le, hv.hbv]
    exact toInt64_lt hp
  have h3 : ¬ p ≥ bf.bv.length := by
    rw [not_le, hv.hbv]
    exact hp
  simp [h0, h3]

theorem nbf_setByteAsync_spec {bf : NaiveBloomFilter} (hv : NBFValid bf)
    {p : Nat} (hp : p < bf.size) :
    bf.setByteAsync p = (.ok (), { bf with bv := bf.bv.set p 1 }) := by
  unfold NaiveBloomFilter.setByteAsync
  have h0 : ¬ toInt64 p ≥ (bf.bv.length : Int) := by
    rw [not_le, hv.hbv]
    exact toInt64_lt hp
  have h3 : ¬ p ≥ bf.bv.length := by
    rw [not_le, hv.hbv]
    exact hp
  simp [h0, h3]

theorem nbf_getByte_spec {bf : NaiveBloomFilter} (hv : NBFValid bf)
    {p : Nat} (hp : p < bf.size) :
    bf.getByte p = .ok (bf.bv.getD p 0 == 1) := by
  unfold NaiveBloomFilter.getByte
  have h0 : ¬ p ≥ bf.size := by omega
  have h3 : ¬ p ≥ bf.bv.length := by
    rw [not_le, hv.hbv]
    exact hp
  simp [h0, h3]

theorem nbf_getByte_true {bf : NaiveBloomFilter} (hv : NBFValid bf)
    {p : Nat} (hp : p < bf.size) (hbit : byteHasFlag bf.bv p) :
    bf.getByte p = .ok true := by
  rw [nbf_getByte_spec hv hp]
  unfold byteHasFlag at hbit
  simp only [GoRes.ok.injEq, beq_iff_eq]
  exact hbit

theorem nbf_getByte_true_iff (bf : NaiveBloomFilter) (p : Nat) :
    bf.getByte p = .ok true ↔
      (p < bf.size ∧ p < bf.bv.length ∧ byteHasFlag bf.bv p) := by
  unfold NaiveBloomFilter.getByte byteHasFlag
  split_ifs with g1 g4
  · simp [not_lt.mpr g1]
  · simp [not_lt.mpr g4]
  · simp only [not_le] at g1 g4
    simp [g1, g4]

theorem nbf_setByte_frame (bf : NaiveBloomFilter) (q : Nat) :
    nbfFrame bf (bf.setByte q).2 := by
  unfold NaiveBloomFilter.setByte
  split_ifs <;> simp [nbfFrame, List.length_set]

theorem nbf_setByteAsync_frame (bf : NaiveBloomFilter) (q : Nat) :
    nbfFrame bf (bf.setByteAsync q).2 := by
  unfold NaiveBloomFilter.setByteAsync
  split_ifs <;> simp [nbfFrame, List.length_set]

theorem nbf_setByte_bv_mono (st : NaiveBloomFilter) (q : Nat) {p : Nat}
    (hp : byteHasFlag st.bv p) : byteHasFlag ((st.setByte q).2).bv p := by
  unfold NaiveBloomFilter.setByte
  split_ifs <;> first
    | exact hp
    | exact byteHasFlag_set_mono st.bv q hp

theorem nbf_setByteAsync_bv_mono (st : NaiveBloomFilter) (q : Nat)
    {p : Nat} (hp : byteHasFlag st.bv p) :
    byteHasFlag ((st.setByteAsync q).2).bv p := by
  unfold NaiveBloomFilter.setByteAsync
  split_ifs <;> first
    | exact hp
    | exact byteHasFlag_set_mono st.bv q hp

theorem nbf_Insert_spec (h : List Nat → Nat) {bf : NaiveBloomFilter}
    (hv : NBFValid bf) {e : List Nat} (he : e ≠ []) :
    (bf.Insert h e).1 = .ok () ∧ NBFValid (bf.Insert h e).2 ∧
    nbfFrame bf (bf.Insert h e).2 ∧
    (1 ≤ bf.hf →
      byteHasFlag ((bf.Insert h e).2).bv
        (h (maskLast e) &&& usub1 bf.size)) := by
  unfold NaiveBloomFilter.Insert
  rw [hashEntry_of_ne_nil h he]
  rcases Nat.eq_zero_or_pos bf.hf with h0 | h1
  · rw [h0]
    exact ⟨rfl, hv, nbfFrame_refl bf, by omega⟩
  · have key := insertLoop_replicate NaiveBloomFilter.setByte
      (usub1 bf.size) (h (maskLast e))
      (fun st => NBFValid st ∧ nbfFrame bf st)
      (fun st => byteHasFlag st.bv (h (maskLast e) &&& usub1 bf.size))
      (fun st hq => ?hset) bf.hf bf ⟨hv, nbfFrame_refl bf⟩ h1
    · exact ⟨key.1, key.2.1.1, key.2.1.2, fun _ => key.2.2⟩
    case hset =>
      obtain ⟨hqv, hqf⟩ := hq
      have hmask : usub1 bf.size = bf.size - 1 :=
        usub1_eq_sub_one (by have := hv.hsize; omega)
      have hple : h (maskLast e) &&& usub1 bf.size < st.size := by
        have h1 : h (maskLast e) &&& usub1 bf.size ≤ usub1 bf.size :=
          Nat.and_le_right
        have h2 := hv.hsize
        have h3 := hqf.1
        omega
      rw [nbf_setByte_spec hqv hple]
      refine ⟨rfl, ⟨NBFValid_frame hqv ?_, nbfFrame_trans hqf ?_⟩, ?_⟩
      · exact ⟨rfl, rfl, by simp [List.length_set]⟩
      · exact ⟨rfl, rfl, by simp [List.length_set]⟩
      · unfold byteHasFlag
        apply getD_set_self
        rw [hqv.hbv]
        exact hple

theorem nbf_InsertAsync_spec (h : List Nat → Nat)
    {bf : NaiveBloomFilter} (hv : NBFValid bf) {e : List Nat}
    (he : e ≠ []) :
    (bf.InsertAsync h e).1 = .ok () ∧ NBFValid (bf.InsertAsync h e).2 ∧
    nbfFrame bf (bf.InsertAsync h e).2 := by
  unfold NaiveBloomFilter.InsertAsync
  rw [hashEntry_of_ne_nil h he]
  have key := insertLoop_ok NaiveBloomFilter.setByteAsync
    (usub1 bf.size) (fun st => NBFValid st ∧ nbfFrame bf st)
    (fun st q hq hle => ?hset)
    (List.replicate bf.hf (h (maskLast e))) bf ⟨hv, nbfFrame_refl bf⟩
  · exact ⟨key.1, key.2.1, key.2.2⟩
  case hset =>
    obtain ⟨hqv, hqf⟩ := hq
    have hmask : usub1 bf.size = bf.size - 1 :=
      usub1_eq_sub_one (by have := hv.hsize; omega)
    have hple : q < st.size := by
      have h2 := hv.hsize
      have h3 := hqf.1
      omega
    rw [nbf_setByteAsync_spec hqv hple]
    refine ⟨rfl, NBFValid_frame hqv ?_, nbfFrame_trans hqf ?_⟩
    · exact ⟨rfl, rfl, by simp [List.length_set]⟩
    · exact ⟨rfl, rfl, by simp [List.length_set]⟩

theorem nbf_Lookup_true (h : List Nat → Nat) {bf : NaiveBloomFilter}
    (hv : NBFValid bf) {e : List Nat} (he : e ≠ [])
    (hbit : 1 ≤ bf.hf →
      byteHasFlag bf.bv (h (maskLast e) &&& usub1 bf.size)) :
    bf.Lookup h e = .ok true := by
  unfold NaiveBloomFilter.Lookup
  rw [hashEntry_of_ne_nil h he]
  apply lookupLoop_true
  intro hw hmem
  have hweq : hw = h (maskLast e) := List.eq_of_mem_replicate hmem
  have hfpos : 1 ≤ bf.hf := by
    rcases Nat.eq_zero_or_pos bf.hf with h0 | h1
    · rw [h0] at hmem
      simp at hmem
    · exact h1
  have hple : hw &&& usub1 bf.size < bf.size := by
    have h1 : hw &&& usub1 bf.size ≤ usub1 bf.size := Nat.and_le_right
    have h2 := hv.hsize
    have h3 := usub1_eq_sub_one (n := bf.size) (by omega)
    omega
  rw [hweq]
  exact nbf_getByte_true hv (hweq ▸ hple) (hbit hfpos)

theorem nbf_Insert_frame (h : List Nat → Nat) (bf : NaiveBloomFilter)
    (e : List Nat) : nbfFrame bf ((bf.Insert h e).2) := by
  unfold NaiveBloomFilter.Insert
  cases hE : hashEntry h e bf.hf with
  | none => exact nbfFrame_refl bf
  | some hs =>
    exact insertLoop_mono _ _ (nbfFrame bf)
      (fun st q hp => nbfFrame_trans hp (nbf_setByte_frame st q))
      hs bf (nbfFrame_refl bf)

theorem nbf_InsertAsync_frame (h : List Nat → Nat)
    (bf : NaiveBloomFilter) (e : List Nat) :
    nbfFrame bf ((bf.InsertAsync h e).2) := by
  unfold NaiveBloomFilter.InsertAsync
  cases hE : hashEntry h e bf.hf with
  | none => exact nbfFrame_refl bf
  | some hs =>
    exact insertLoop_mono _ _ (nbfFrame bf)
      (fun st q hp => nbfFrame_trans hp (nbf_setByteAsync_frame st q))
      hs bf (nbfFrame_refl bf)

theorem nbf_Insert_bv_mono (h : List Nat → Nat) (bf : NaiveBloomFilter)
    (e : List Nat) {p : Nat} (hp : byteHasFlag bf.bv p) :
    byteHasFlag ((bf.Insert h e).2).bv p := by
  unfold NaiveBloomFilter.Insert
  cases hE : hashEntry h e bf.hf with
  | none => exact hp
  | some hs =>
    exact insertLoop_mono _ _ (fun st => byteHasFlag st.bv p)
      (fun st q hq => nbf_setByte_bv_mono st q hq) hs bf hp

theorem nbf_InsertAsync_bv_mono (h : List Nat → Nat)
    (bf : NaiveBloomFilter) (e : List Nat) {p : Nat}
    (hp : byteHasFlag bf.bv p) :
    byteHasFlag ((bf.InsertAsync h e).2).bv p := by
  unfold NaiveBloomFilter.InsertAsync
  cases hE : hashEntry h e bf.hf with
  | none => exact hp
  | some hs =>
    exact insertLoop_mono _ _ (fun st => byteHasFlag st.bv p)
      (fun st q hq => nbf_setByteAsync_bv_mono st q hq) hs bf hp

theorem nbf_Load_frame (bf : NaiveBloomFilter) (stream : List Nat) :
    nbfFrame bf ((bf.Load stream).2) := by
  unfold NaiveBloomFilter.Load
  dsimp only
  split
  · exact nbfFrame_refl bf
  · exact loadLoop_mono _ (nbfFrame bf)
      (fun st q hp => nbfFrame_trans hp (nbf_setByte_frame st q))
      _ 0 bf (nbfFrame_refl bf)

theorem nbf_Load_bv_mono (bf : NaiveBloomFilter) (stream : List Nat)
    {p : Nat} (hp : byteHasFlag bf.bv p) :
    byteHasFlag ((bf.Load stream).2).bv p := by
  unfold NaiveBloomFilter.Load
  dsimp only
  split
  · exact hp
  · exact loadLoop_mono _ (fun st => byteHasFlag st.bv p)
      (fun st q hq => nbf_setByte_bv_mono st q hq) _ 0 bf hp

theorem nbf_Insert_get_mono (h : List Nat → Nat) (bf : NaiveBloomFilter)
    (e : List Nat) (p : Nat) (hg : bf.getByte p = .ok true) :
    ((bf.Insert h e).2).getByte p = .ok true := by
  rw [nbf_getByte_true_iff] at hg ⊢
  obtain ⟨g1, g4, g5⟩ := hg
  obtain ⟨e1, e4, e5⟩ := nbf_Insert_frame h bf e
  refine ⟨by rw [e1]; exact g1, by rw [e5]; exact g4,
    nbf_Insert_bv_mono h bf e g5⟩

theorem nbf_InsertAsync_get_mono (h : List Nat → Nat)
    (bf : NaiveBloomFilter) (e : List Nat) (p : Nat)
    (hg : bf.getByte p = .ok true) :
    ((bf.InsertAsync h e).2).getByte p = .ok true := by
  rw [nbf_getByte_true_iff] at hg ⊢
  obtain ⟨g1, g4, g5⟩ := hg
  obtain ⟨e1, e4, e5⟩ := nbf_InsertAsync_frame h bf e
  refine ⟨by rw [e1]; exact g1, by rw [e5]; exact g4,
    nbf_InsertAsync_bv_mono h bf e g5⟩

theorem nbf_Load_get_mono (bf : NaiveBloomFilter) (stream : List Nat)
    (p : Nat) (hg : bf.getByte p = .ok true) :
    ((bf.Load stream).2).getByte p = .ok true := by
  rw [nbf_getByte_true_iff] at hg ⊢
  obtain ⟨g1, g4, g5⟩ := hg
  obtain ⟨e1, e4, e5⟩ := nbf_Load_frame bf stream
  refine ⟨by rw [e1]; exact g1, by rw [e5]; exact g4,
    nbf_Load_bv_mono bf stream g5⟩

def NaiveBloomFilter.insertAll (h : List Nat → Nat) :
    NaiveBloomFilter → List (List Nat) → NaiveBloomFilter
  | bf, [] => bf
  | bf, k :: rest => NaiveBloomFilter.insertAll h (bf.Insert h k).2 rest

theorem nbf_insertAll_bv_mono (h : List Nat → Nat) :
    ∀ (ks : List (List Nat)) (bf : NaiveBloomFilter) {p : Nat},
      byteHasFlag bf.bv p →
      byteHasFlag (NaiveBloomFilter.insertAll h bf ks).bv p
  | [], _, _, hp => hp
  | k :: rest, bf, _, hp =>
    nbf_insertAll_bv_mono h rest (bf.Insert h k).2
      (nbf_Insert_bv_mono h bf k hp)

theorem nbf_insertAll_spec (h : List Nat → Nat) :
    ∀ (ks : List (List Nat)) (bf : NaiveBloomFilter), NBFValid bf →
      (∀ k ∈ ks, k ≠ []) →
      NBFValid (NaiveBloomFilter.insertAll h bf ks) ∧
      nbfFrame bf (NaiveBloomFilter.insertAll h bf ks) ∧
      (∀ key ∈ ks, 1 ≤ bf.hf →
        byteHasFlag (NaiveBloomFilter.insertAll h bf ks).bv
          (h (maskLast key) &&& usub1 bf.size))
  | [], bf, hv, _ => ⟨hv, nbfFrame_refl bf, by simp⟩
  | k :: rest, bf, hv, hne => by
    have hkne : k ≠ [] := hne k (by simp)
    obtain ⟨hok, hv2, hfr2, hbit⟩ := nbf_Insert_spec h hv hkne
    obtain ⟨ihv, ihfr, ihbit⟩ := nbf_insertAll_spec h rest
      (bf.Insert h k).2 hv2 (fun k2 hk2 => hne k2 (by simp [hk2]))
    refine ⟨ihv, nbfFrame_trans hfr2 ihfr, ?_⟩
    intro key hkey hhf
    simp only [NaiveBloomFilter.insertAll]
    rcases List.mem_cons.1 hkey with rfl | hkey2
    · exact nbf_insertAll_bv_mono h rest (bf.Insert h key).2 (hbit hhf)
    · have := ihbit key hkey2 (by rw [hfr2.2.1]; exact hhf)
      rw [hfr2.1] at this
      exact this

theorem nbf_Insert_no_gerr (h : List Nat → Nat) {bf : NaiveBloomFilter}
    (hv : NBFValid bf) (e : List Nat) (er : GoErr) :
    (bf.Insert h e).1 ≠ .gerr er := by
  unfold NaiveBloomFilter.Insert
  cases hE : hashEntry h e bf.hf with
  | none => simp
  | some hs =>
    have key := insertLoop_ok NaiveBloomFilter.setByte
      (usub1 bf.size) (fun st => NBFValid st ∧ nbfFrame bf st)
      (fun st q hq hle => ?hset) hs bf ⟨hv, nbfFrame_refl bf⟩
    · show (insertLoop NaiveBloomFilter.setByte
        (usub1 bf.size) hs bf).1 ≠ .gerr er
      rw [key.1]
      simp
    case hset =>
      obtain ⟨hqv, hqf⟩ := hq
      have hmask : usub1 bf.size = bf.size - 1 :=
        usub1_eq_sub_one (by have := hv.hsize; omega)
      have hple : q < st.size := by
        have h2 := hv.hsize
        have h3 := hqf.1
        omega
      rw [nbf_setByte_spec hqv hple]
      refine ⟨rfl, NBFValid_frame hqv ?_, nbfFrame_trans hqf ?_⟩
      · exact ⟨rfl, rfl, by simp [List.length_set]⟩
      · exact ⟨rfl, rfl, by simp [List.length_set]⟩

theorem nbf_Lookup_no_gerr (h : List Nat → Nat) {bf : NaiveBloomFilter}
    (hv : NBFValid bf) (e : List Nat) (er : GoErr) :
    bf.Lookup h e ≠ .gerr er := by
  unfold NaiveBloomFilter.Lookup
  cases hE : hashEntry h e bf.hf with
  | none => simp
  | some hs =>
    have key := lookupLoop_ok bf.getByte (usub1 bf.size) hs ?hget
    · obtain ⟨b, hb⟩ := key
      show lookupLoop bf.getByte (usub1 bf.size) hs ≠ .gerr er
      rw [hb]
      simp
    case hget =>
      intro hw _
      have hple : hw &&& usub1 bf.size < bf.size := by
        have h1 : hw &&& usub1 bf.size ≤ usub1 bf.size := Nat.and_le_right
        have h2 := hv.hsize
        have h3 := usub1_eq_sub_one (n := bf.size) (by omega)
        omega
      exact ⟨_, nbf_getByte_spec hv hple⟩

/-! ## Freshness, write-stream and read-stream lemmas -/

theorem getD_replicate_zero (n i : Nat) :
    (List.replicate n (0 : Nat)).getD i 0 = 0 := by
  simp only [List.getD_eq_getElem?_getD, List.getElem?_replicate]
  split <;> rfl

theorem sbf_fresh_unset {size hf shards : Nat} {bf : StripedBloomFilter}
    (h : NewStripedBloomFilter size hf shards = .ok bf) :
    ∀ p < bf.size, bf.getBit p = .ok false := by
  have hv := SBFValid_of_new h
  obtain ⟨_, _, _, _, _, rfl⟩ := NewStripedBloomFilter_ok h
  intro p hp
  rw [sbf_getBit_spec hv hp]
  simp [getD_replicate_zero]

theorem bf_fresh_unset {size hf : Nat} {bf : BloomFilter}
    (h : NewBloomFilter size hf = .ok bf) :
    ∀ p < bf.size, bf.getBit p = .ok false := by
  have hv := BFValid_of_new h
  obtain ⟨_, _, rfl⟩ := NewBloomFilter_ok h
  intro p hp
  rw [bf_getBit_spec hv hp]
  simp [getD_replicate_zero]

theorem nsbf_fresh_unset {size hf shards : Nat}
    {bf : NaiveStripedBloomFilter}
    (h : NewNaiveStripedBloomFilter size hf shards = .ok bf) :
    ∀ p < bf.size, bf.getByte p = .ok false := by
  have hv := NSBFValid_of_new h
  obtain ⟨_, _, _, _, rfl⟩ := NewNaiveStripedBloomFilter_ok h
  intro p hp
  rw [nsbf_getByte_spec hv hp]
  simp [getD_replicate_zero]

theorem nbf_fresh_unset {size hf : Nat} {bf : NaiveBloomFilter}
    (h : NewNaiveBloomFilter size hf = .ok bf) :
    ∀ p < bf.size, bf.getByte p = .ok false := by
  have hv := NBFValid_of_new h
  obtain ⟨_, _, rfl⟩ := NewNaiveBloomFilter_ok h
  intro p hp
  rw [nbf_getByte_spec hv hp]
  simp [getD_replicate_zero]

theorem readBytesNL_eq_self :
    ∀ s : List Nat, (∀ b ∈ s, b ≠ 10) → readBytesNL s = s
  | [], _ => rfl
  | b :: rest, hb => by
    have hbne : b ≠ 10 := hb b (by simp)
    simp only [readBytesNL, if_neg hbne]
    rw [readBytesNL_eq_self rest fun x hx => hb x (by simp [hx])]

theorem decDigits_of_le_one {b : Nat} (hb : b ≤ 1) :
    decDigits b = [48 + b] := by
  rcases Nat.le_one_iff_eq_zero_or_eq_one.1 hb with rfl | rfl <;> rfl

theorem flatten_singletons_length :
    ∀ l : List (List Nat), (∀ x ∈ l, x.length = 1) →
      l.flatten.length = l.length
  | [], _ => rfl
  | x :: rest, hx => by
    simp only [List.flatten_cons, List.length_append, List.length_cons,
      hx x (by simp)]
    rw [flatten_singletons_length rest fun y hy => hx y (by simp [hy])]
    omega

/-- The decimal serialization of a 0/1-valued byte vector: one ASCII
digit per position, so the stream length equals the position count and
the stream never contains a newline byte. -/
theorem naive_write_stream {bv : List Nat} {n : Nat}
    (hle : ∀ i, bv.getD i 0 ≤ 1) :
    (((List.range n).map fun i => decDigits (bv.getD i 0)).flatten).length
        = n ∧
    ∀ b ∈ ((List.range n).map fun i =>
        decDigits (bv.getD i 0)).flatten, b ≠ 10 := by
  constructor
  · rw [flatten_singletons_length]
    · simp
    · intro x hx
      obtain ⟨i, _, rfl⟩ := List.mem_map.1 hx
      rw [decDigits_of_le_one (hle i)]
      rfl
  · intro b hb
    obtain ⟨x, hx, hbx⟩ := List.mem_flatten.1 hb
    obtain ⟨i, _, rfl⟩ := List.mem_map.1 hx
    rw [decDigits_of_le_one (hle i)] at hbx
    have := hle i
    simp only [List.mem_singleton] at hbx
    omega

/-- `Insert` on a `NaiveBloomFilter` keeps every byte at most 1 (bytes
are only ever set to 1). -/
theorem nbf_Insert_le_one (h : List Nat → Nat) (bf : NaiveBloomFilter)
    (e : List Nat) (hle : ∀ i, bf.bv.getD i 0 ≤ 1) :
    ∀ i, ((bf.Insert h e).2).bv.getD i 0 ≤ 1 := by
  unfold NaiveBloomFilter.Insert
  cases hE : hashEntry h e bf.hf with
  | none => exact hle
  | some hs =>
    refine insertLoop_mono _ _ (fun st => ∀ i, st.bv.getD i 0 ≤ 1)
      (fun st q hq i => ?_) hs bf hle
    unfold NaiveBloomFilter.setByte
    split_ifs with g1 g2
    · exact hq i
    · exact hq i
    · by_cases hqi : q = i
      · subst hqi
        by_cases hql : q < st.bv.length
        · rw [getD_set_self _ _ hql]
        · rw [List.set_eq_of_length_le (by omega)]
          exact hq q
      · rw [getD_set_neq _ _ hqi]
        exact hq i

theorem lookupLoop_first_false (get : Nat → GoRes Bool) (mask : Nat)
    (hv0 : Nat) (rest : List Nat)
    (hget : get (hv0 &&& mask) = .ok false) :
    lookupLoop get mask (hv0 :: rest) = .ok false := by
  simp only [lookupLoop, hget]

/-- Lookup on an all-zero `NaiveBloomFilter` with at least one hash
returns `false` with no error. -/
theorem nbf_Lookup_false_fresh (h : List Nat → Nat)
    {bf : NaiveBloomFilter} (hv : NBFValid bf)
    (hzero : ∀ i, bf.bv.getD i 0 = 0) (hhf : 1 ≤ bf.hf) {e : List Nat}
    (he : e ≠ []) : bf.Lookup h e = .ok false := by
  unfold NaiveBloomFilter.Lookup
  rw [hashEntry_of_ne_nil h he]
  obtain ⟨k, hk⟩ : ∃ k, bf.hf = k + 1 := ⟨bf.hf - 1, by omega⟩
  rw [hk, List.replicate_succ]
  apply lookupLoop_first_false
  have hple : h (maskLast e) &&& usub1 bf.size < bf.size := by
    have h1 : h (maskLast e) &&& usub1 bf.size ≤ usub1 bf.size :=
      Nat.and_le_right
    have h2 := hv.hsize
    have h3 := usub1_eq_sub_one (n := bf.size) (by omega)
    omega
  rw [nbf_getByte_spec hv hple, hzero]
  rfl

/-! ## Async get specs and Lookup totality helpers -/

theorem sbf_getBitAsync_spec {bf : StripedBloomFilter} (hv : SBFValid bf)
    {p : Nat} (hp : p < bf.size) :
    bf.getBitAsync p =
      .ok ((bf.bv.getD (p / 64) 0 &&& (1 <<< (p &&& 63))) != 0) := by
  unfold StripedBloomFilter.getBitAsync
  have h0 : ¬ p > usub1 bf.size := by
    rw [usub1_eq_sub_one (by have := hv.hsize; omega)]
    have := hv.hsize
    omega
  have h3 : ¬ p / 64 ≥ bf.bv.length := by
    rw [not_le, hv.hbv]
    exact Nat.div_lt_div_of_lt_of_dvd hv.hdvd hp
  simp [h0, h3]

theorem nsbf_getByteAsync_spec {bf : NaiveStripedBloomFilter}
    (hv : NSBFValid bf) {p : Nat} (hp : p < bf.size) :
    bf.getByteAsync p = .ok (bf.bv.getD p 0 == 1) := by
  unfold NaiveStripedBloomFilter.getByteAsync
  have h0 : ¬ p > usub1 bf.size := by
    rw [usub1_eq_sub_one (by have := hv.hsize; omega)]
    have := hv.hsize
    omega
  have h3 : ¬ p ≥ bf.bv.length := by
    rw [not_le, hv.hbv]
    exact hp
  simp [h0, h3]

theorem nbf_getByteAsync_spec {bf : NaiveBloomFilter} (hv : NBFValid bf)
    {p : Nat} (hp : p < bf.size) :
    bf.getByteAsync p = .ok (bf.bv.getD p 0 == 1) := by
  unfold NaiveBloomFilter.getByteAsync
  have h0 : ¬ p ≥ bf.size := by omega
  have h3 : ¬ p ≥ bf.bv.length := by
    rw [not_le, hv.hbv]
    exact hp
  simp [h0, h3]

theorem sbf_Lookup_okres (h : List Nat → Nat) {bf : StripedBloomFilter}
    (hv : SBFValid bf) {e : List Nat} (he : e ≠ []) :
    ∃ b, bf.Lookup h e = .ok b := by
  unfold StripedBloomFilter.Lookup
  rw [hashEntry_of_ne_nil h he]
  apply lookupLoop_ok
  intro hw _
  have hple : hw &&& usub1 bf.size < bf.size := by
    have h1 : hw &&& usub1 bf.size ≤ usub1 bf.size := Nat.and_le_right
    have h2 := hv.hsize
    have h3 := usub1_eq_sub_one (n := bf.size) (by omega)
    omega
  exact ⟨_, sbf_getBit_spec hv hple⟩

theorem sbf_LookupAsync_okres (h : List Nat → Nat)
    {bf : StripedBloomFilter} (hv : SBFValid bf) {e : List Nat}
    (he : e ≠ []) : ∃ b, bf.LookupAsync h e = .ok b := by
  unfold StripedBloomFilter.LookupAsync
  rw [hashEntry_of_ne_nil h he]
  apply lookupLoop_ok
  intro hw _
  have hple : hw &&& usub1 bf.size < bf.size := by
    have h1 : hw &&& usub1 bf.size ≤ usub1 bf.size := Nat.and_le_right
    have h2 := hv.hsize
    have h3 := usub1_eq_sub_one (n := bf.size) (by omega)
    omega
  exact ⟨_, sbf_getBitAsync_spec hv hple⟩

theorem bf_Lookup_okres (h : List Nat → Nat) {bf : BloomFilter}
    (hv : BFValid bf) {e : List Nat} (he : e ≠ []) :
    ∃ b, bf.Lookup h e = .ok b := by
  unfold BloomFilter.Lookup
  rw [hashEntry_of_ne_nil h he]
  apply lookupLoop_ok
  intro hw _
  have hple : hw &&& usub1 bf.size < bf.size := by
    have h1 : hw &&& usub1 bf.size ≤ usub1 bf.size := Nat.and_le_right
    have h2 := hv.hsize
    have h3 := usub1_eq_sub_one (n := bf.size) (by omega)
    omega
  exact ⟨_, bf_getBit_spec hv hple⟩

theorem bf_LookupAsync_okres (h : List Nat → Nat) {bf : BloomFilter}
    (hv : BFValid bf) {e : List Nat} (he : e ≠ []) :
    ∃ b, bf.LookupAsync h e = .ok b := by
  unfold BloomFilter.LookupAsync
  rw [hashEntry_of_ne_nil h he]
  apply lookupLoop_ok
  intro hw _
  have hple : hw &&& usub1 bf.size < bf.size := by
    have h1 : hw &&& usub1 bf.size ≤ usub1 bf.size := Nat.and_le_right
    have h2 := hv.hsize
    have h3 := usub1_eq_sub_one (n := bf.size) (by omega)
    omega
  exact ⟨_, show bf.getBit _ = _ from bf_getBit_spec hv hple⟩

theorem nsbf_Lookup_okres (h : List Nat → Nat)
    {bf : NaiveStripedBloomFilter} (hv : NSBFValid bf) {e : List Nat}
    (he : e ≠ []) : ∃ b, bf.Lookup h e = .ok b := by
  unfold NaiveStripedBloomFilter.Lookup
  rw [hashEntry_of_ne_nil h he]
  apply lookupLoop_ok
  intro hw _
  have hple : hw &&& usub1 bf.size < bf.size := by
    have h1 : hw &&& usub1 bf.size ≤ usub1 bf.size := Nat.and_le_right
    have h2 := hv.hsize
    have h3 := usub1_eq_sub_one (n := bf.size) (by omega)
    omega
  exact ⟨_, nsbf_getByte_spec hv hple⟩

theorem nsbf_LookupAsync_okres (h : List Nat → Nat)
    {bf : NaiveStripedBloomFilter} (hv : NSBFValid bf) {e : List Nat}
    (he : e ≠ []) : ∃ b, bf.LookupAsync h e = .ok b := by
  unfold NaiveStripedBloomFilter.LookupAsync
  rw [hashEntry_of_ne_nil h he]
  apply lookupLoop_ok
  intro hw _
  have hple : hw &&& usub1 bf.size < bf.size := by
    have h1 : hw &&& usub1 bf.size ≤ usub1 bf.size := Nat.and_le_right
    have h2 := hv.hsize
    have h3 := usub1_eq_sub_one (n := bf.size) (by omega)
    omega
  exact ⟨_, nsbf_getByteAsync_spec hv hple⟩

theorem nbf_Lookup_okres (h : List Nat → Nat) {bf : NaiveBloomFilter}
    (hv : NBFValid bf) {e : List Nat} (he : e ≠ []) :
    ∃ b, bf.Lookup h e = .ok b := by
  unfold NaiveBloomFilter.Lookup
  rw [hashEntry_of_ne_nil h he]
  apply lookupLoop_ok
  intro hw _
  have hple : hw &&& usub1 bf.size < bf.size := by
    have h1 : hw &&& usub1 bf.size ≤ usub1 bf.size := Nat.and_le_right
    have h2 := hv.hsize
    have h3 := usub1_eq_sub_one (n := bf.size) (by omega)
    omega
  exact ⟨_, nbf_getByte_spec hv hple⟩

theorem nbf_LookupAsync_okres (h : List Nat → Nat)
    {bf : NaiveBloomFilter} (hv : NBFValid bf) {e : List Nat}
    (he : e ≠ []) : ∃ b, bf.LookupAsync h e = .ok b := by
  unfold NaiveBloomFilter.LookupAsync
  rw [hashEntry_of_ne_nil h he]
  apply lookupLoop_ok
  intro hw _
  have hple : hw &&& usub1 bf.size < bf.size := by
    have h1 : hw &&& usub1 bf.size ≤ usub1 bf.size := Nat.and_le_right
    have h2 := hv.hsize
    have h3 := usub1_eq_sub_one (n := bf.size) (by omega)
    omega
  exact ⟨_, nbf_getByteAsync_spec hv hple⟩

/-- A fixed concrete stand-in for the external 64-bit hash, used to
instantiate universally quantified theorems at a computable input. -/
def h0 : List Nat → Nat := fun _ => 0

/-! ## Claim theorems -/

/-- **C1** (refuting evaluation for the code_bug): the index deriver's
"perturbation" of the last key byte is the no-op mask `& 0xFF`, so for
every external hash `h`, every non-empty key and every `k`, `hashEntry`
returns `k` copies of one and the same 64-bit value, and the `k` derived
positions (each hash masked with `size - 1`) are all identical — the
claim that they are "not all identical" for `k > 1` fails on this code
for every key. -/
theorem C1_all_positions_identical (h : List Nat → Nat) (e : List Nat)
    (n mask : Nat) (he : e ≠ []) :
    hashEntry h e n = some (List.replicate n (h (maskLast e))) ∧
    ∀ p ∈ (List.replicate n (h (maskLast e))).map (fun v => v &&& mask),
      p = h (maskLast e) &&& mask := by
  refine ⟨hashEntry_of_ne_nil h he n, ?_⟩
  intro p hp
  obtain ⟨v, hv, rfl⟩ := List.mem_map.1 hp
  rw [List.eq_of_mem_replicate hv]

/-- **C1** witness: the key `"a"` with `k = 2` and `size = 64` yields
two identical derived positions. -/
theorem C1_all_positions_identical_w :
    ([97] : List Nat) ≠ [] ∧
    (hashEntry h0 [97] 2 = some (List.replicate 2 (h0 (maskLast [97]))) ∧
     ∀ p ∈ (List.replicate 2 (h0 (maskLast [97]))).map (fun v => v &&& 63),
       p = h0 (maskLast [97]) &&& 63) :=
  ⟨by decide, C1_all_positions_identical h0 [97] 2 63 (by decide)⟩

/-- **C3** (refuting evaluation for the code_bug): `StripedBloomFilter.Load`
performs no size validation at all.  Loading a stream of two zero bytes
(declared size `1`, disagreeing with the filter's size `64`) returns
`ok` — not a size-mismatch error — while the caller's filter is left
untouched only because the value receiver's `size`/`bv` reassignments are
local.  The other three variants do validate; this one never does. -/
theorem C3_striped_load_never_validates :
    ∃ bf : StripedBloomFilter, NewStripedBloomFilter 64 4 1 = .ok bf ∧
      bf.size = 64 ∧ bf.Load [0, 0] = (.ok (), bf) :=
  ⟨_, rfl, rfl, rfl⟩

/-- **C4** (refuting evaluation for the code_bug):
`NewNaiveStripedBloomFilter(64, 4, 0)` panics with an integer divide by
zero at the `size % shards` check instead of returning a validation
error: unlike the packed striped constructor there is no `shards == 0`
guard, and `0` passes the power-of-two test (`0 & (0-1) == 0`) and the
`shards > size/64` test. -/
theorem C4_shards_zero_divide_by_zero :
    NewNaiveStripedBloomFilter 64 4 0 = .panicked := by decide

/-- **C5** (refuting evaluation for the code_bug): on a valid 64-bit
`NaiveBloomFilter`, `setByte(2^63)` (and `setByteAsync`) panics with an
index out of range instead of returning the out-of-range error: the
guard converts the `uint64` index to a signed `int`, which is negative
for `2^63`, so the guard passes and the slice write panics.  `getByte`
at the same position does return the error, as the claim demands. -/
theorem C5_setByte_above_2pow63_panics :
    ∃ bf : NaiveBloomFilter, NewNaiveBloomFilter 64 1 = .ok bf ∧
      bf.setByte (2 ^ 63) = (.panicked, bf) ∧
      bf.setByteAsync (2 ^ 63) = (.panicked, bf) ∧
      bf.getByte (2 ^ 63) = .gerr .idxRange :=
  ⟨_, rfl, by decide, by decide, by decide⟩

/-- **C10** (refuting evaluation for the code_bug): on every validly
constructed packed-bit filter, `Write` panics: its loop runs `i` from
`0` to `size - 1` indexing `bf.bv[i]`, but the word array has only
`size/64 < size` elements, so the access at `i = size/64` is out of
range. -/
theorem C10_packed_write_panics :
    (∀ (size hf shards : Nat) (bf : StripedBloomFilter),
      NewStripedBloomFilter size hf shards = .ok bf →
      bf.Write = .panicked) ∧
    (∀ (size hf : Nat) (bf : BloomFilter),
      NewBloomFilter size hf = .ok bf → bf.Write = .panicked) := by
  constructor
  · intro size hf shards bf hnew
    have hv := SBFValid_of_new hnew
    unfold StripedBloomFilter.Write
    rw [if_neg]
    rw [not_le, hv.hbv]
    exact Nat.div_lt_self (by have := hv.hsize; omega) (by omega)
  · intro size hf bf hnew
    have hv := BFValid_of_new hnew
    unfold BloomFilter.Write
    rw [if_neg]
    rw [not_le, hv.hbv]
    exact Nat.div_lt_self (by have := hv.hsize; omega) (by omega)

/-- **C10** witness: the smallest valid packed filter already panics. -/
theorem C10_packed_write_panics_w :
    ({ bv := List.replicate 1 0, size := 64, shards := 1, hf := 1,
       shardLen := 64 } : StripedBloomFilter).Write = .panicked :=
  C10_packed_write_panics.1 64 1 1 _ rfl

/-- **C2** (refuting evaluation for the code_bug): the `Write`/`Load`
round trip fails on the byte-flag variant for *every* external hash.
After inserting `"a"` into a fresh 64-position `NaiveBloomFilter`,
`Write` emits one ASCII digit per position and **no trailing newline**,
so the produced 64-byte stream declares size `len - 1 = 63`; `Load` into
a fresh same-sized filter therefore always fails with the size-mismatch
error and changes nothing, and the fresh filter's `Lookup` answers
`false` where the original answers `true`.  (On the packed variants the
round trip cannot even start: `Write` panics, see the C10 theorem.) -/
theorem C2_roundtrip_fails (h : List Nat → Nat) :
    ∃ (bf0 bf1 : NaiveBloomFilter) (s : List Nat),
      NewNaiveBloomFilter 64 1 = .ok bf0 ∧
      bf0.Insert h [97] = (.ok (), bf1) ∧
      bf1.Lookup h [97] = .ok true ∧
      bf1.Write = .ok s ∧
      bf0.Load s = (.gerr .sizeMismatch, bf0) ∧
      bf0.Lookup h [97] = .ok false := by
  set bf0 : NaiveBloomFilter :=
    { bv := List.replicate 64 0, size := 64, hf := 1 } with hbf0
  have hnew : NewNaiveBloomFilter 64 1 = .ok bf0 := by
    rw [hbf0]
    decide
  have hv0 : NBFValid bf0 := ⟨Nat.le_refl 64, by rw [hbf0]; simp⟩
  have hp : h (maskLast [97]) &&& usub1 bf0.size < bf0.size :=
    lt_of_le_of_lt Nat.and_le_right
      (show usub1 (64 : Nat) < 64 by norm_num [usub1])
  set bf1 : NaiveBloomFilter :=
    { bf0 with
      bv := bf0.bv.set (h (maskLast [97]) &&& usub1 bf0.size) 1 } with hbf1
  have hIns : bf0.Insert h [97] = (.ok (), bf1) := by
    unfold NaiveBloomFilter.Insert
    rw [hashEntry_of_ne_nil h (by simp)]
    show insertLoop NaiveBloomFilter.setByte (usub1 bf0.size)
      (List.replicate 1 (h (maskLast [97]))) bf0 = (.ok (), bf1)
    rw [List.replicate_one]
    simp only [insertLoop]
    rw [nbf_setByte_spec hv0 hp]
  have hlen1 : bf1.bv.length = 64 := by
    rw [hbf1]
    simp [List.length_set]
  have hsz1 : bf1.size = 64 := by rw [hbf1]
  have hv1 : NBFValid bf1 := by
    constructor
    · rw [hsz1]
    · rw [hlen1, hsz1]
  have hle1 : ∀ i, bf1.bv.getD i 0 ≤ 1 := by
    intro i
    rw [hbf1]
    by_cases hip : h (maskLast [97]) &&& usub1 bf0.size = i
    · rw [← hip, getD_set_self _ _ (by simpa using hp)]
    · rw [getD_set_neq _ _ hip, getD_replicate_zero]
      omega
  have hbit1 : byteHasFlag bf1.bv
      (h (maskLast [97]) &&& usub1 bf0.size) := by
    rw [hbf1]
    exact getD_set_self _ _ (by simpa using hp)
  have hLk1 : bf1.Lookup h [97] = .ok true := by
    apply nbf_Lookup_true h hv1 (by simp)
    intro _
    rw [hsz1]
    exact hbit1
  have hW : bf1.Write = .ok (((List.range 64).map fun i =>
      decDigits (bf1.bv.getD i 0)).flatten) := by
    unfold NaiveBloomFilter.Write
    rw [if_pos (by rw [hlen1, hsz1]), hsz1]
  obtain ⟨hslen, hsnl⟩ := naive_write_stream (n := 64) hle1
  have hload : bf0.Load (((List.range 64).map fun i =>
      decDigits (bf1.bv.getD i 0)).flatten) =
      (.gerr .sizeMismatch, bf0) := by
    unfold NaiveBloomFilter.Load
    dsimp only
    rw [readBytesNL_eq_self _ hsnl, hslen]
    norm_num [usub1, hbf0]
  have hLk0 : bf0.Lookup h [97] = .ok false := by
    apply nbf_Lookup_false_fresh h hv0 ?hz (Nat.le_refl 1) (by simp)
    case hz =>
      intro i
      rw [hbf0]
      exact getD_replicate_zero 64 i
  exact ⟨bf0, bf1, _, hnew, hIns, hLk1, hW, hload, hLk0⟩

/-- **C2** witness: the round-trip failure instantiated at a concrete
hash function. -/
theorem C2_roundtrip_fails_w :
    ∃ (bf0 bf1 : NaiveBloomFilter) (s : List Nat),
      NewNaiveBloomFilter 64 1 = .ok bf0 ∧
      bf0.Insert h0 [97] = (.ok (), bf1) ∧
      bf1.Lookup h0 [97] = .ok true ∧
      bf1.Write = .ok s ∧
      bf0.Load s = (.gerr .sizeMismatch, bf0) ∧
      bf0.Lookup h0 [97] = .ok false :=
  C2_roundtrip_fails h0

/-- **C6**: no false negatives.  For each of the four variants: on a
validly constructed filter, after any sequence of `Insert` calls over
non-empty keys that contains `Insert(key)`, a subsequent `Lookup(key)`
returns `true` with no error (sequential execution, matching the
claim's "without concurrent writers"). -/
theorem C6_no_false_negatives :
    (∀ (h : List Nat → Nat) (size hf shards : Nat)
       (bf : StripedBloomFilter) (ks : List (List Nat)) (key : List Nat),
       NewStripedBloomFilter size hf shards = .ok bf →
       (∀ k ∈ ks, k ≠ []) → key ∈ ks →
       (StripedBloomFilter.insertAll h bf ks).Lookup h key = .ok true) ∧
    (∀ (h : List Nat → Nat) (size hf : Nat) (bf : BloomFilter)
       (ks : List (List Nat)) (key : List Nat),
       NewBloomFilter size hf = .ok bf →
       (∀ k ∈ ks, k ≠ []) → key ∈ ks →
       (BloomFilter.insertAll h bf ks).Lookup h key = .ok true) ∧
    (∀ (h : List Nat → Nat) (size hf shards : Nat)
       (bf : NaiveStripedBloomFilter) (ks : List (List Nat))
       (key : List Nat),
       NewNaiveStripedBloomFilter size hf shards = .ok bf →
       (∀ k ∈ ks, k ≠ []) → key ∈ ks →
       (NaiveStripedBloomFilter.insertAll h bf ks).Lookup h key
         = .ok true) ∧
    (∀ (h : List Nat → Nat) (size hf : Nat) (bf : NaiveBloomFilter)
       (ks : List (List Nat)) (key : List Nat),
       NewNaiveBloomFilter size hf = .ok bf →
       (∀ k ∈ ks, k ≠ []) → key ∈ ks →
       (NaiveBloomFilter.insertAll h bf ks).Lookup h key = .ok true) := by
  refine ⟨?_, ?_, ?_, ?_⟩
  · intro h size hf shards bf ks key hnew hne hmem
    have hv := SBFValid_of_new hnew
    obtain ⟨fv, ffr, fbit⟩ := sbf_insertAll_spec h ks bf hv hne
    apply sbf_Lookup_true h fv (hne key hmem)
    intro hhf
    have hb := fbit key hmem (ffr.2.2.2.1 ▸ hhf)
    rw [ffr.1]
    exact hb
  · intro h size hf bf ks key hnew hne hmem
    have hv := BFValid_of_new hnew
    obtain ⟨fv, ffr, fbit⟩ := bf_insertAll_spec h ks bf hv hne
    apply bf_Lookup_true h fv (hne key hmem)
    intro hhf
    have hb := fbit key hmem (ffr.2.1 ▸ hhf)
    rw [ffr.1]
    exact hb
  · intro h size hf shards bf ks key hnew hne hmem
    have hv := NSBFValid_of_new hnew
    obtain ⟨fv, ffr, fbit⟩ := nsbf_insertAll_spec h ks bf hv hne
    apply nsbf_Lookup_true h fv (hne key hmem)
    intro hhf
    have hb := fbit key hmem (ffr.2.2.2.1 ▸ hhf)
    rw [ffr.1]
    exact hb
  · intro h size hf bf ks key hnew hne hmem
    have hv := NBFValid_of_new hnew
    obtain ⟨fv, ffr, fbit⟩ := nbf_insertAll_spec h ks bf hv hne
    apply nbf_Lookup_true h fv (hne key hmem)
    intro hhf
    have hb := fbit key hmem (ffr.2.1 ▸ hhf)
    rw [ffr.1]
    exact hb

/-- **C6** witness: insert the key `"a"` into the smallest valid striped
filter and look it up. -/
theorem C6_no_false_negatives_w :
    (StripedBloomFilter.insertAll h0
      { bv := List.replicate 1 0, size := 64, shards := 1, hf := 1,
        shardLen := 64 } [[97]]).Lookup h0 [97] = .ok true :=
  C6_no_false_negatives.1 h0 64 1 1 _ [[97]] [97] rfl (by decide)
    (by decide)

/-- **C7**: on every validly constructed filter, every position derived
by masking a 64-bit hash with `size - 1` lies in `[0, size)`, `Insert`
and `Lookup` never return an out-of-range (or any other) error, and the
boundary position `size - 1` is reachable: the single-bit set succeeds
there and the single-bit get returns a value. -/
theorem C7_masked_positions_in_range :
    (∀ (h : List Nat → Nat) (size hf shards : Nat)
       (bf : StripedBloomFilter),
       NewStripedBloomFilter size hf shards = .ok bf →
       (∀ v : Nat, v &&& usub1 bf.size < bf.size) ∧
       (∀ (e : List Nat) (er : GoErr), (bf.Insert h e).1 ≠ .gerr er) ∧
       (∀ (e : List Nat) (er : GoErr), bf.Lookup h e ≠ .gerr er) ∧
       (bf.setBit (bf.size - 1)).1 = .ok () ∧
       (∃ b, bf.getBit (bf.size - 1) = .ok b)) ∧
    (∀ (h : List Nat → Nat) (size hf : Nat) (bf : BloomFilter),
       NewBloomFilter size hf = .ok bf →
       (∀ v : Nat, v &&& usub1 bf.size < bf.size) ∧
       (∀ (e : List Nat) (er : GoErr), (bf.Insert h e).1 ≠ .gerr er) ∧
       (∀ (e : List Nat) (er : GoErr), bf.Lookup h e ≠ .gerr er) ∧
       (bf.setBit (bf.size - 1)).1 = .ok () ∧
       (∃ b, bf.getBit (bf.size - 1) = .ok b)) ∧
    (∀ (h : List Nat → Nat) (size hf shards : Nat)
       (bf : NaiveStripedBloomFilter),
       NewNaiveStripedBloomFilter size hf shards = .ok bf →
       (∀ v : Nat, v &&& usub1 bf.size < bf.size) ∧
       (∀ (e : List Nat) (er : GoErr), (bf.Insert h e).1 ≠ .gerr er) ∧
       (∀ (e : List Nat) (er : GoErr), bf.Lookup h e ≠ .gerr er) ∧
       (bf.setByte (bf.size - 1)).1 = .ok () ∧
       (∃ b, bf.getByte (bf.size - 1) = .ok b)) ∧
    (∀ (h : List Nat → Nat) (size hf : Nat) (bf : NaiveBloomFilter),
       NewNaiveBloomFilter size hf = .ok bf →
       (∀ v : Nat, v &&& usub1 bf.size < bf.size) ∧
       (∀ (e : List Nat) (er : GoErr), (bf.Insert h e).1 ≠ .gerr er) ∧
       (∀ (e : List Nat) (er : GoErr), bf.Lookup h e ≠ .gerr er) ∧
       (bf.setByte (bf.size - 1)).1 = .ok () ∧
       (∃ b, bf.getByte (bf.size - 1) = .ok b)) := by
  refine ⟨?_, ?_, ?_, ?_⟩
  · intro h size hf shards bf hnew
    have hv := SBFValid_of_new hnew
    have hrange : ∀ v : Nat, v &&& usub1 bf.size < bf.size := by
      intro v
      have h1 : v &&& usub1 bf.size ≤ usub1 bf.size := Nat.and_le_right
      have h2 := hv.hsize
      have h3 := usub1_eq_sub_one (n := bf.size) (by omega)
      omega
    refine ⟨hrange, fun e er => sbf_Insert_no_gerr h hv e er,
      fun e er => sbf_Lookup_no_gerr h hv e er, ?_, ?_⟩
    · rw [sbf_setBit_spec hv (by have := hv.hsize; omega)]
    · exact ⟨_, sbf_getBit_spec hv (by have := hv.hsize; omega)⟩
  · intro h size hf bf hnew
    have hv := BFValid_of_new hnew
    have hrange : ∀ v : Nat, v &&& usub1 bf.size < bf.size := by
      intro v
      have h1 : v &&& usub1 bf.size ≤ usub1 bf.size := Nat.and_le_right
      have h2 := hv.hsize
      have h3 := usub1_eq_sub_one (n := bf.size) (by omega)
      omega
    refine ⟨hrange, fun e er => bf_Insert_no_gerr h hv e er,
      fun e er => bf_Lookup_no_gerr h hv e er, ?_, ?_⟩
    · rw [bf_setBit_spec hv (by have := hv.hsize; omega)]
    · exact ⟨_, bf_getBit_spec hv (by have := hv.hsize; omega)⟩
  · intro h size hf shards bf hnew
    have hv := NSBFValid_of_new hnew
    have hrange : ∀ v : Nat, v &&& usub1 bf.size < bf.size := by
      intro v
      have h1 : v &&& usub1 bf.size ≤ usub1 bf.size := Nat.and_le_right
      have h2 := hv.hsize
      have h3 := usub1_eq_sub_one (n := bf.size) (by omega)
      omega
    refine ⟨hrange, fun e er => nsbf_Insert_no_gerr h hv e er,
      fun e er => nsbf_Lookup_no_gerr h hv e er, ?_, ?_⟩
    · rw [nsbf_setByte_spec hv (by have := hv.hsize; omega)]
    · exact ⟨_, nsbf_getByte_spec hv (by have := hv.hsize; omega)⟩
  · intro h size hf bf hnew
    have hv := NBFValid_of_new hnew
    have hrange : ∀ v : Nat, v &&& usub1 bf.size < bf.size := by
      intro v
      have h1 : v &&& usub1 bf.size ≤ usub1 bf.size := Nat.and_le_right
      have h2 := hv.hsize
      have h3 := usub1_eq_sub_one (n := bf.size) (by omega)
      omega
    refine ⟨hrange, fun e er => nbf_Insert_no_gerr h hv e er,
      fun e er => nbf_Lookup_no_gerr h hv e er, ?_, ?_⟩
    · rw [nbf_setByte_spec hv (by have := hv.hsize; omega)]
    · exact ⟨_, nbf_getByte_spec hv (by have := hv.hsize; omega)⟩

/-- **C7** witness: boundary set at position 63 of the smallest valid
striped filter succeeds. -/
theorem C7_masked_positions_in_range_w :
    (({ bv := List.replicate 1 0, size := 64, shards := 1, hf := 1,
        shardLen := 64 } : StripedBloomFilter).setBit 63).1 = .ok () :=
  (C7_masked_positions_in_range.1 h0 64 1 1 _ rfl).2.2.2.1

/-- **C8**: insert-only monotonicity.  For each variant: a freshly
constructed filter reads every position as unset, and each operation
that can touch the caller's state (`Insert`, `InsertAsync`, `Load`)
preserves every position that already reads as set — no operation ever
clears a set position.  (`Lookup`, `LookupAsync` and `Write` perform no
writes at all: in the embedding they return a result without a modified
filter, so their monotonicity is definitional.)  For the striped packed
variant, `Load` preserves the state outright (see `sbf_Load_state`). -/
theorem C8_insert_only_monotone :
    ((∀ (size hf shards : Nat) (bf : StripedBloomFilter),
        NewStripedBloomFilter size hf shards = .ok bf →
        ∀ p < bf.size, bf.getBit p = .ok false) ∧
     (∀ (h : List Nat → Nat) (bf : StripedBloomFilter) (e : List Nat)
        (p : Nat), bf.getBit p = .ok true →
        ((bf.Insert h e).2).getBit p = .ok true) ∧
     (∀ (h : List Nat → Nat) (bf : StripedBloomFilter) (e : List Nat)
        (p : Nat), bf.getBit p = .ok true →
        ((bf.InsertAsync h e).2).getBit p = .ok true) ∧
     (∀ (bf : StripedBloomFilter) (s : List Nat) (p : Nat),
        bf.getBit p = .ok true →
        ((bf.Load s).2).getBit p = .ok true)) ∧
    ((∀ (size hf : Nat) (bf : BloomFilter),
        NewBloomFilter size hf = .ok bf →
        ∀ p < bf.size, bf.getBit p = .ok false) ∧
     (∀ (h : List Nat → Nat) (bf : BloomFilter) (e : List Nat) (p : Nat),
        bf.getBit p = .ok true →
        ((bf.Insert h e).2).getBit p = .ok true) ∧
     (∀ (h : List Nat → Nat) (bf : BloomFilter) (e : List Nat) (p : Nat),
        bf.getBit p = .ok true →
        ((bf.InsertAsync h e).2).getBit p = .ok true) ∧
     (∀ (bf : BloomFilter) (s : List Nat) (p : Nat),
        bf.getBit p = .ok true →
        ((bf.Load s).2).getBit p = .ok true)) ∧
    ((∀ (size hf shards : Nat) (bf : NaiveStripedBloomFilter),
        NewNaiveStripedBloomFilter size hf shards = .ok bf →
        ∀ p < bf.size, bf.getByte p = .ok false) ∧
     (∀ (h : List Nat → Nat) (bf : NaiveStripedBloomFilter)
        (e : List Nat) (p : Nat), bf.getByte p = .ok true →
        ((bf.Insert h e).2).getByte p = .ok true) ∧
     (∀ (h : List Nat → Nat) (bf : NaiveStripedBloomFilter)
        (e : List Nat) (p : Nat), bf.getByte p = .ok true →
        ((bf.InsertAsync h e).2).getByte p = .ok true) ∧
     (∀ (bf : NaiveStripedBloomFilter) (s : List Nat) (p : Nat),
        bf.getByte p = .ok true →
        ((bf.Load s).2).getByte p = .ok true)) ∧
    ((∀ (size hf : Nat) (bf : NaiveBloomFilter),
        NewNaiveBloomFilter size hf = .ok bf →
        ∀ p < bf.size, bf.getByte p = .ok false) ∧
     (∀ (h : List Nat → Nat) (bf : NaiveBloomFilter) (e : List Nat)
        (p : Nat), bf.getByte p = .ok true →
        ((bf.Insert h e).2).getByte p = .ok true) ∧
     (∀ (h : List Nat → Nat) (bf : NaiveBloomFilter) (e : List Nat)
        (p : Nat), bf.getByte p = .ok true →
        ((bf.InsertAsync h e).2).getByte p = .ok true) ∧
     (∀ (bf : NaiveBloomFilter) (s : List Nat) (p : Nat),
        bf.getByte p = .ok true →
        ((bf.Load s).2).getByte p = .ok true)) := by
  refine ⟨⟨?_, ?_, ?_, ?_⟩, ⟨?_, ?_, ?_, ?_⟩, ⟨?_, ?_, ?_, ?_⟩,
    ⟨?_, ?_, ?_, ?_⟩⟩
  · exact fun size hf shards bf hnew => sbf_fresh_unset hnew
  · exact fun h bf e p hg => sbf_Insert_get_mono h bf e p hg
  · exact fun h bf e p hg => sbf_InsertAsync_get_mono h bf e p hg
  · intro bf s p hg
    rw [sbf_Load_state]
    exact hg
  · exact fun size hf bf hnew => bf_fresh_unset hnew
  · exact fun h bf e p hg => bf_Insert_get_mono h bf e p hg
  · exact fun h bf e p hg => bf_InsertAsync_get_mono h bf e p hg
  · exact fun bf s p hg => bf_Load_get_mono bf s p hg
  · exact fun size hf shards bf hnew => nsbf_fresh_unset hnew
  · exact fun h bf e p hg => nsbf_Insert_get_mono h bf e p hg
  · exact fun h bf e p hg => nsbf_InsertAsync_get_mono h bf e p hg
  · exact fun bf s p hg => nsbf_Load_get_mono bf s p hg
  · exact fun size hf bf hnew => nbf_fresh_unset hnew
  · exact fun h bf e p hg => nbf_Insert_get_mono h bf e p hg
  · exact fun h bf e p hg => nbf_InsertAsync_get_mono h bf e p hg
  · exact fun bf s p hg => nbf_Load_get_mono bf s p hg

/-- **C8** witness: position 0 of a fresh smallest striped filter reads
as unset. -/
theorem C8_insert_only_monotone_w :
    ({ bv := List.replicate 1 0, size := 64, shards := 1, hf := 1,
       shardLen := 64 } : StripedBloomFilter).getBit 0 = .ok false :=
  C8_insert_only_monotone.1.1 64 1 1 _ rfl 0 (by decide)

/-- **C9** counterexample: the claim that the operations are total for
*every* key fails on the empty string.  On a valid centralized packed
filter with one hash, `Insert("")`, `InsertAsync("")`, `Lookup("")` and
`LookupAsync("")` all panic: `hashEntry` indexes `pert[len(pert)-1]`
with `len = 0`, i.e. position `-1`. -/
theorem C9_empty_key_panics :
    ∃ bf : BloomFilter, NewBloomFilter 64 1 = .ok bf ∧
      (bf.Insert h0 []).1 = .panicked ∧
      (bf.InsertAsync h0 []).1 = .panicked ∧
      bf.Lookup h0 [] = .panicked ∧
      bf.LookupAsync h0 [] = .panicked :=
  ⟨_, rfl, rfl, rfl, rfl, rfl⟩

/-- **C9** as amended: on every validly constructed filter, the four
key-based operations are total — they return a value (or in principle an
error, which in fact never occurs) rather than panicking — for every
**non-empty** key. -/
theorem C9_total_for_nonempty_keys :
    (∀ (h : List Nat → Nat) (size hf shards : Nat)
       (bf : StripedBloomFilter) (e : List Nat),
       NewStripedBloomFilter size hf shards = .ok bf → e ≠ [] →
       (bf.Insert h e).1 = .ok () ∧ (bf.InsertAsync h e).1 = .ok () ∧
       (∃ b, bf.Lookup h e = .ok b) ∧
       (∃ b, bf.LookupAsync h e = .ok b)) ∧
    (∀ (h : List Nat → Nat) (size hf : Nat) (bf : BloomFilter)
       (e : List Nat),
       NewBloomFilter size hf = .ok bf → e ≠ [] →
       (bf.Insert h e).1 = .ok () ∧ (bf.InsertAsync h e).1 = .ok () ∧
       (∃ b, bf.Lookup h e = .ok b) ∧
       (∃ b, bf.LookupAsync h e = .ok b)) ∧
    (∀ (h : List Nat → Nat) (size hf shards : Nat)
       (bf : NaiveStripedBloomFilter) (e : List Nat),
       NewNaiveStripedBloomFilter size hf shards = .ok bf → e ≠ [] →
       (bf.Insert h e).1 = .ok () ∧ (bf.InsertAsync h e).1 = .ok () ∧
       (∃ b, bf.Lookup h e = .ok b) ∧
       (∃ b, bf.LookupAsync h e = .ok b)) ∧
    (∀ (h : List Nat → Nat) (size hf : Nat) (bf : NaiveBloomFilter)
       (e : List Nat),
       NewNaiveBloomFilter size hf = .ok bf → e ≠ [] →
       (bf.Insert h e).1 = .ok () ∧ (bf.InsertAsync h e).1 = .ok () ∧
       (∃ b, bf.Lookup h e = .ok b) ∧
       (∃ b, bf.LookupAsync h e = .ok b)) := by
  refine ⟨?_, ?_, ?_, ?_⟩
  · intro h size hf shards bf e hnew he
    have hv := SBFValid_of_new hnew
    exact ⟨(sbf_Insert_spec h hv he).1, (sbf_InsertAsync_spec h hv he).1,
      sbf_Lookup_okres h hv he, sbf_LookupAsync_okres h hv he⟩
  · intro h size hf bf e hnew he
    have hv := BFValid_of_new hnew
    exact ⟨(bf_Insert_spec h hv he).1, (bf_InsertAsync_spec h hv he).1,
      bf_Lookup_okres h hv he, bf_LookupAsync_okres h hv he⟩
  · intro h size hf shards bf e hnew he
    have hv := NSBFValid_of_new hnew
    exact ⟨(nsbf_Insert_spec h hv he).1,
      (nsbf_InsertAsync_spec h hv he).1,
      nsbf_Lookup_okres h hv he, nsbf_LookupAsync_okres h hv he⟩
  · intro h size hf bf e hnew he
    have hv := NBFValid_of_new hnew
    exact ⟨(nbf_Insert_spec h hv he).1, (nbf_InsertAsync_spec h hv he).1,
      nbf_Lookup_okres h hv he, nbf_LookupAsync_okres h hv he⟩

/-- **C9** witness: the amended totality instantiated on the smallest
valid striped filter with the key `"a"`. -/
theorem C9_total_for_nonempty_keys_w :
    ((StripedBloomFilter.Insert h0
        { bv := List.replicate 1 0, size := 64, shards := 1, hf := 1,
          shardLen := 64 } [97]).1 = .ok ()) ∧
    ((StripedBloomFilter.InsertAsync h0
        { bv := List.replicate 1 0, size := 64, shards := 1, hf := 1,
          shardLen := 64 } [97]).1 = .ok ()) ∧
    (∃ b, StripedBloomFilter.Lookup h0
        { bv := List.replicate 1 0, size := 64, shards := 1, hf := 1,
          shardLen := 64 } [97] = .ok b) ∧
    (∃ b, StripedBloomFilter.LookupAsync h0
        { bv := List.replicate 1 0, size := 64, shards := 1, hf := 1,
          shardLen := 64 } [97] = .ok b) :=
  C9_total_for_nonempty_keys.1 h0 64 1 1 _ [97] rfl (by decide)
